import Mathlib

/-!
Verification of the connectivity-graph construction in
`examples/special/plot_connectivity_graph.py` of the spydrnet repository.

The graph builder operates on an in-memory hierarchical netlist model
(instances, definitions, ports, pins, cables, wires).  That model is an
external collaborator of the code under verification; we embed it as plain
index-based data (`Netlist` below), modelled from the specification's data
model: a definition has ports, cables and child instances; a port has a
direction and an ordered list of pins; a cable has an ordered list of wires;
a wire connects a set of pins, each pin being either an inner pin of a port
of the enclosing definition or an outer pin of a child instance.  A pin's
attached wire (`pin.wire` in the source) is recovered by searching the
enclosing definition's cables (`pinWire` below); a well-formed netlist
attaches each pin to at most one wire, making this search exact.

The hierarchy tree built by `generate_nodes` has exactly one node per
(parent node, element) pair; we identify a hierarchy node with its access
path from the root (a `List Step`).  A node's `item` is recovered by
`resolve`, its `children` keys by `childSteps`, and its `parent` is the
path with the last step dropped.  The worklist algorithms of the source
(`get_leaf_instance_nodes`, `get_downstream_nodes`) are embedded as
explicit step functions on states, iterated with a computable fuel that is
proved sufficient for well-formed netlists.
-/

/-- Port direction, modelled from the spec: IN, OUT or INOUT. -/
inductive Direction where
  | IN
  | OUT
  | INOUT
deriving DecidableEq, Repr

/-- Attribute dictionary of a netlist element (EDIF identifiers etc.). -/
abbrev Attrs := List (String × String)

/-- Modelled from the spec: a port has a direction, an ordered pin list
(represented by its length; pins are addressed by index) and attributes. -/
structure PortDecl where
  direction : Direction
  numPins : Nat
  attrs : Attrs
deriving DecidableEq, Repr

/-- A reference to a pin inside the scope of one definition:
`inner p i` is pin `i` of the definition's own port `p` (an InnerPin);
`outer j p i` is the outer pin of child instance `j` corresponding to
inner pin `i` of port `p` of that child's referenced definition. -/
inductive PinRef where
  | inner (port pin : Nat)
  | outer (inst port pin : Nat)
deriving DecidableEq, Repr

/-- Modelled from the spec: a wire joins a set of pins. -/
structure WireDecl where
  pins : List PinRef
deriving DecidableEq, Repr

/-- Modelled from the spec: a cable is an ordered group of wires. -/
structure CableDecl where
  wires : List WireDecl
  attrs : Attrs
deriving DecidableEq, Repr

/-- Modelled from the spec: an instance carries a reference to a definition
(an index into the netlist's definition list) and attributes. -/
structure InstDecl where
  ref : Nat
  attrs : Attrs
deriving DecidableEq, Repr

/-- Modelled from the spec: a definition has ports, cables and child
instances. -/
structure DefDecl where
  ports : List PortDecl
  cables : List CableDecl
  children : List InstDecl
deriving DecidableEq, Repr

/-- Modelled from the spec: a netlist is a finite set of definitions
together with a top instance. -/
structure Netlist where
  defs : List DefDecl
  top : InstDecl
deriving DecidableEq, Repr

/-- Look up a definition by index (`instance.reference` in the source). -/
def getDef (nl : Netlist) (i : Nat) : Option DefDecl :=
  nl.defs[i]?

/-- Modelled from the spec glossary: a leaf definition has no internal
instances (`Definition.is_leaf()` in the source). -/
def isLeafDef (dd : DefDecl) : Bool :=
  dd.children.isEmpty

/-- One edge of a hierarchy-node access path: which child of the current
node is taken.  The keys of a node's `children` dictionary in the source
are netlist elements; in the index-based model they are the element's
index within its containing collection. -/
inductive Step where
  | port (i : Nat)
  | cable (i : Nat)
  | inst (i : Nat)
  | pin (i : Nat)
  | wire (i : Nat)
deriving DecidableEq, Repr

/-- A hierarchy node, identified by its access path from the root node
(the top instance).  `generate_nodes` creates exactly one `Node` per
(parent, element) pair, so paths are faithful node identities. -/
abbrev HPath := List Step

/-- The underlying netlist element wrapped by a hierarchy node
(`node.item` in the source). -/
inductive Item where
  | inst (d : InstDecl)
  | port (p : PortDecl)
  | pin (p : PortDecl) (i : Nat)
  | cable (c : CableDecl)
  | wire (c : CableDecl) (i : Nat)
deriving DecidableEq, Repr

/-- Taking one step down from a node wrapping `it`: the item of the
corresponding child node, or `none` if no such child exists. -/
def stepItem (nl : Netlist) : Item → Step → Option Item
  | .inst d, .port i => (getDef nl d.ref).bind fun dd => (dd.ports[i]?).map Item.port
  | .inst d, .cable i => (getDef nl d.ref).bind fun dd => (dd.cables[i]?).map Item.cable
  | .inst d, .inst i => (getDef nl d.ref).bind fun dd => (dd.children[i]?).map Item.inst
  | .port p, .pin i => if i < p.numPins then some (Item.pin p i) else none
  | .cable c, .wire i => if i < c.wires.length then some (Item.wire c i) else none
  | _, _ => none

/-- Resolve a path starting from a given item. -/
def resolveFrom (nl : Netlist) : Item → HPath → Option Item
  | it, [] => some it
  | it, s :: π =>
    match stepItem nl it s with
    | some it2 => resolveFrom nl it2 π
    | none => none

/-- The item of the hierarchy node at path `π` (`node.item`); `none` when
no node with this path exists in the tree built by `generate_nodes`. -/
def resolve (nl : Netlist) (π : HPath) : Option Item :=
  resolveFrom nl (Item.inst nl.top) π

/-- The children created for a node by the expansion pass of
`generate_nodes` (lines 86-112 of the source): for an instance, one node
per port, per cable and per child instance of its referenced definition
(in that order); for a port, one node per pin; for a cable, one node per
wire; pins and wires get no children. -/
def childSteps (nl : Netlist) : Item → List Step
  | .inst d =>
    match getDef nl d.ref with
    | none => []
    | some dd =>
      (List.range dd.ports.length).map Step.port ++
      (List.range dd.cables.length).map Step.cable ++
      (List.range dd.children.length).map Step.inst
  | .port p => (List.range p.numPins).map Step.pin
  | .cable c => (List.range c.wires.length).map Step.wire
  | .pin _ _ => []
  | .wire _ _ => []

/-- Index of the first wire in the list containing the given pin
reference. -/
def findWireInWires (pr : PinRef) : List WireDecl → Option Nat
  | [] => none
  | w :: ws =>
    if pr ∈ w.pins then some 0
    else (findWireInWires pr ws).map (· + 1)

/-- `(cable index, wire index)` of the first wire among the cables that
contains the given pin reference. -/
def findWireIdx (pr : PinRef) : List CableDecl → Option (Nat × Nat)
  | [] => none
  | c :: cs =>
    match findWireInWires pr c.wires with
    | some w => some (0, w)
    | none => (findWireIdx pr cs).map fun q => (q.1 + 1, q.2)

/-- The wire attached to a pin (`pin.wire` in the source), within the
scope of the definition `dd` that contains the pin, as a
`(cable index, wire index)` pair. -/
def pinWire (dd : DefDecl) (pr : PinRef) : Option (Nat × Nat) :=
  findWireIdx pr dd.cables

/-- The scope definition of the instance node at path `σ`: the definition
referenced by that instance. -/
def resolveCtx (nl : Netlist) (σ : HPath) : Option DefDecl :=
  match resolve nl σ with
  | some (.inst d) => getDef nl d.ref
  | _ => none

/-- `(port index, pin index)` pairs enumerating `instance.pins` of an
instance referencing definition `dd` (one outer pin per inner pin). -/
def defPinPairs (dd : DefDecl) : List (Nat × Nat) :=
  dd.ports.enum.flatMap fun pe => (List.range pe.2.numPins).map fun i => (pe.1, i)

/-- Whether a direction qualifies a pin as a traversal source when leaving
an instance (line 153 of the source: `{sdn.OUT, sdn.INOUT}`). -/
def dirOutish : Direction → Bool
  | .OUT => true
  | .INOUT => true
  | .IN => false

/-- Whether a direction qualifies a top-level port as a traversal source
(line 167 of the source: `{sdn.IN, sdn.INOUT}`). -/
def dirInish : Direction → Bool
  | .IN => true
  | .INOUT => true
  | .OUT => false

/-- State of the non-recursive traversal of `get_downstream_nodes`:
the work stack of wire-node paths, the visited pin-node set
`found_pin_nodes` (kept as a duplicate-free list) and the accumulated
downstream-node list. -/
structure DSState where
  stack : List HPath
  found : List HPath
  downstream : List HPath
deriving DecidableEq, Repr

/-- `found_pin_nodes.add(p)`: set insertion. -/
def addFound (f : List HPath) (p : HPath) : List HPath :=
  if p ∈ f then f else p :: f

/-- For one outer pin `(port index, pin index)` of the instance at `π`:
the inner-pin node to mark found and the wire node to push, when the
inner-pin port direction is OUT or INOUT and the pin's wire is non-null
(lines 150-161 of the source). -/
def seedInstPin (nl : Netlist) (π : HPath) (d : InstDecl) (pi : Nat × Nat) :
    Option (HPath × HPath) :=
  match getDef nl d.ref with
  | none => none
  | some dd =>
    match dd.ports[pi.1]? with
    | none => none
    | some pd =>
      if dirOutish pd.direction then
        match π.getLast? with
        | some (Step.inst j) =>
          match resolveCtx nl π.dropLast with
          | some ddP =>
            match pinWire ddP (PinRef.outer j pi.1 pi.2) with
            | some cw =>
              some (π ++ [Step.port pi.1, Step.pin pi.2],
                    π.dropLast ++ [Step.cable cw.1, Step.wire cw.2])
            | none => none
          | none => none
        | _ => none
      else none

/-- Record one optional (found pin node, pushed wire node) pair in the
traversal state. -/
def recordSeed (s : DSState) : Option (HPath × HPath) → DSState
  | some fw => { s with found := addFound s.found fw.1, stack := fw.2 :: s.stack }
  | none => s

/-- Seed step of `get_downstream_nodes` for a node wrapping an instance
(lines 146-161): for every outer pin of the instance whose inner-pin port
direction is OUT or INOUT and whose wire is non-null, mark the inner-pin
node as found and push the wire node (in the parent scope). -/
def seedInst (nl : Netlist) (π : HPath) (d : InstDecl) : DSState :=
  let pairs : List (Nat × Nat) :=
    match getDef nl d.ref with
    | none => []
    | some dd => defPinPairs dd
  pairs.foldl (fun s pi => recordSeed s (seedInstPin nl π d pi)) ⟨[], [], []⟩

/-- For one pin of the port node at `π`: the pin node to mark found and
the wire node to push, when the pin's wire is non-null (lines 168-177 of
the source). -/
def seedPortPin (nl : Netlist) (π : HPath) (i : Nat) : Option (HPath × HPath) :=
  match π.getLast? with
  | some (Step.port p) =>
    match resolveCtx nl π.dropLast with
    | some ddP =>
      match pinWire ddP (PinRef.inner p i) with
      | some cw =>
        some (π ++ [Step.pin i],
              π.dropLast ++ [Step.cable cw.1, Step.wire cw.2])
      | none => none
    | none => none
  | _ => none

/-- Seed step of `get_downstream_nodes` for a node wrapping a port when
`include_top_ports` is asserted (lines 163-177): if the port direction is
IN or INOUT, for every pin of the port with a non-null wire, mark the pin
node as found and push the wire node (in the parent scope). -/
def seedPort (nl : Netlist) (π : HPath) (pd : PortDecl) : DSState :=
  if dirInish pd.direction then
    (List.range pd.numPins).foldl (fun s i => recordSeed s (seedPortPin nl π i)) ⟨[], [], []⟩
  else ⟨[], [], []⟩

/-- The initial traversal state of `get_downstream_nodes(node, flag)`
(lines 142-177): seeds from an instance node, from a port node when
`include_top_ports` is asserted, and the empty state otherwise. -/
def dsInit (nl : Netlist) (flag : Bool) (π : HPath) : DSState :=
  match resolve nl π with
  | some (.inst d) => seedInst nl π d
  | some (.port pd) => if flag then seedPort nl π pd else ⟨[], [], []⟩
  | _ => ⟨[], [], []⟩

/-- Processing of one pin attached to the current wire (lines 187-222 of
the source).  `σι` is the path of the current instance node (the wire
node's grandparent). -/
def processPin (nl : Netlist) (flag : Bool) (σι : HPath) (s : DSState) : PinRef → DSState
  | .inner p i =>
    let portNode := σι ++ [Step.port p]
    let pinNode := σι ++ [Step.port p, Step.pin i]
    if pinNode ∈ s.found then s
    else
      let s1 := { s with found := pinNode :: s.found }
      match σι.getLast? with
      | some (Step.inst j) =>
        match resolveCtx nl σι.dropLast with
        | some ddP =>
          match pinWire ddP (PinRef.outer j p i) with
          | some cw =>
            { s1 with stack := (σι.dropLast ++ [Step.cable cw.1, Step.wire cw.2]) :: s1.stack }
          | none => s1
        | none => s1
      | none =>
        if flag then { s1 with downstream := s1.downstream ++ [portNode] } else s1
      | some _ => s1
  | .outer j p i =>
    let instNode := σι ++ [Step.inst j]
    match resolveCtx nl σι with
    | some dd =>
      match dd.children[j]? with
      | some ch =>
        match getDef nl ch.ref with
        | some ddc =>
          if isLeafDef ddc then { s with downstream := s.downstream ++ [instNode] }
          else
            let pinNode := instNode ++ [Step.port p, Step.pin i]
            let s1 := { s with found := addFound s.found pinNode }
            match pinWire ddc (PinRef.inner p i) with
            | some cw =>
              { s1 with stack := (instNode ++ [Step.cable cw.1, Step.wire cw.2]) :: s1.stack }
            | none => s1
        | none => s
      | none => s
    | none => s

/-- Processing of one popped wire node: iterate over the wire's pins
(line 187).  Paths that do not resolve to a wire node are dropped (a
well-formed run never produces them). -/
def processWire (nl : Netlist) (flag : Bool) (ω : HPath) (s : DSState) : DSState :=
  match resolve nl ω with
  | some (.wire c wi) =>
    match c.wires[wi]? with
    | some wd => wd.pins.foldl (processPin nl flag ω.dropLast.dropLast) s
    | none => s
  | _ => s

/-- The work-stack loop of `get_downstream_nodes` (lines 181-222), with
explicit fuel: pop a wire node and process its pins until the stack is
empty or the fuel runs out. -/
def dsRun (nl : Netlist) (flag : Bool) : Nat → DSState → DSState
  | 0, s => s
  | n + 1, s =>
    match s.stack with
    | [] => s
    | ω :: rest => dsRun nl flag n (processWire nl flag ω { s with stack := rest })

/-- Largest number of pins attached to any single wire of the netlist. -/
def maxWirePins (nl : Netlist) : Nat :=
  (nl.defs.map fun d =>
    (d.cables.map fun c =>
      (c.wires.map fun w => w.pins.length).foldr max 0).foldr max 0).foldr max 0

/-- Base of the termination measure for the downstream traversal. -/
def dsB (nl : Netlist) : Nat := maxWirePins nl + 2

/-- Exponent bound of the termination measure: wire-node paths in a
well-formed run are shorter than this. -/
def dsE (nl : Netlist) : Nat := nl.defs.length + 6

/-- Weight of one stack entry: deeper wire nodes weigh less. -/
def wWeight (nl : Netlist) (ω : HPath) : Nat :=
  dsB nl ^ (dsE nl - ω.length)

/-- Total weight of the work stack. -/
def stackW (nl : Netlist) (l : List HPath) : Nat :=
  (l.map (wWeight nl)).sum

/-- Coefficient dominating any one-step stack-weight increase. -/
def dsC (nl : Netlist) : Nat := dsB nl ^ (dsE nl + 1) + 1

/-- All pin-node paths of the hierarchy tree, enumerated to the given
instance-nesting depth. -/
def pinNodesFrom (nl : Netlist) : Nat → InstDecl → HPath → List HPath
  | 0, _, _ => []
  | fuel + 1, d, σ =>
    match getDef nl d.ref with
    | none => []
    | some dd =>
      (dd.ports.enum.flatMap fun pe =>
        (List.range pe.2.numPins).map fun i => σ ++ [Step.port pe.1, Step.pin i]) ++
      (dd.children.enum.flatMap fun ce =>
        pinNodesFrom nl fuel ce.2 (σ ++ [Step.inst ce.1]))

/-- All pin-node paths of the hierarchy tree of a well-formed netlist. -/
def allPinNodes (nl : Netlist) : List HPath :=
  pinNodesFrom nl (nl.defs.length + 2) nl.top []

/-- Bound on the number of distinct visited pin nodes. -/
def dsN (nl : Netlist) : Nat := (allPinNodes nl).length

/-- The termination measure of the downstream traversal: it strictly
decreases at every loop iteration on a well-formed netlist. -/
def dsMu (nl : Netlist) (s : DSState) : Nat :=
  (dsN nl - s.found.length) * dsC nl + stackW nl s.stack

/-- The final traversal state of `get_downstream_nodes(node, flag)`: the
loop run with fuel exceeding the initial measure. -/
def dsFinal (nl : Netlist) (flag : Bool) (π : HPath) : DSState :=
  let s0 := dsInit nl flag π
  dsRun nl flag (dsMu nl s0 + 1) s0

/-- `get_downstream_nodes(node, include_top_ports)`: the downstream-node
list accumulated by the traversal. -/
def getDownstreamNodes (nl : Netlist) (flag : Bool) (π : HPath) : List HPath :=
  (dsFinal nl flag π).downstream

/-- Largest fan-out of any hierarchy node (number of children). -/
def maxFanout (nl : Netlist) : Nat :=
  (nl.defs.map fun d => d.ports.length + d.cables.length + d.children.length).foldr max 0

/-- Base of the termination measure for `get_leaf_instance_nodes`. -/
def collB (nl : Netlist) : Nat := maxFanout nl + 2

/-- Exponent bound for the collector measure. -/
def collE (nl : Netlist) : Nat := nl.defs.length + 6

/-- Weight of a collector stack entry. -/
def collWeight (nl : Netlist) (π : HPath) : Nat :=
  collB nl ^ (collE nl - π.length)

/-- Collector measure: sum of stack-entry weights. -/
def collMu (nl : Netlist) (l : List HPath) : Nat :=
  (l.map (collWeight nl)).sum

/-- The worklist loop of `get_leaf_instance_nodes` (lines 119-128): pop a
node; if it wraps an instance, collect it when its definition is a leaf
and otherwise push all its children; drop non-instance nodes. -/
def collRun (nl : Netlist) : Nat → List HPath → List HPath → List HPath
  | 0, acc, _ => acc
  | _ + 1, acc, [] => acc
  | n + 1, acc, π :: rest =>
    match resolve nl π with
    | some (.inst d) =>
      match getDef nl d.ref with
      | some dd =>
        if isLeafDef dd then collRun nl n (acc ++ [π]) rest
        else collRun nl n acc ((childSteps nl (.inst d)).map (fun s => π ++ [s]) ++ rest)
      | none => collRun nl n acc rest
    | _ => collRun nl n acc rest

/-- `get_leaf_instance_nodes(top_instance_node)`: all leaf-instance nodes
reached from the root through non-leaf instances. -/
def leafInstanceNodes (nl : Netlist) : List HPath :=
  collRun nl (collMu nl [[]] + 1) [] [[]]

/-- `get_top_port_nodes(top_instance_node)` (line 134): the children of
the root node that wrap a port. -/
def topPortNodes (nl : Netlist) : List HPath :=
  (childSteps nl (.inst nl.top)).filterMap fun s =>
    match s with
    | Step.port p => some [Step.port p]
    | _ => none

/-- The output directed graph: node set and edge set (no multiplicity). -/
structure DiGraph where
  nodes : Finset HPath
  edges : Finset (HPath × HPath)
deriving DecidableEq

/-- `graph.add_nodes_from(l)`. -/
def addNodes (g : DiGraph) (l : List HPath) : DiGraph :=
  { g with nodes := l.foldl (fun s p => insert p s) g.nodes }

/-- `graph.add_edge(u, v)`: inserts the edge and both endpoints. -/
def addEdge (g : DiGraph) (u v : HPath) : DiGraph :=
  ⟨insert u (insert v g.nodes), insert (u, v) g.edges⟩

/-- The ordered list of selected graph nodes: leaf-instance nodes plus,
when `include_top_ports` is asserted, the top-level port nodes. -/
def baseNodes (nl : Netlist) (flag : Bool) : List HPath :=
  leafInstanceNodes nl ++ (if flag then topPortNodes nl else [])

/-- `get_connectivity_graph(include_top_ports)` (lines 59-78): insert the
selected nodes, then for each selected node add an edge to every node of
its downstream list. -/
def getConnectivityGraph (nl : Netlist) (flag : Bool) : DiGraph :=
  let base := baseNodes nl flag
  let g0 := addNodes ⟨∅, ∅⟩ base
  base.foldl
    (fun g π => (getDownstreamNodes nl flag π).foldl (fun g2 d => addEdge g2 π d) g)
    g0

/-- `Node.get_name` (lines 249-253): the preferred original identifier if
present, else the generated identifier, else no name (the source returns
`None` silently). -/
def getName (a : Attrs) : Option String :=
  match a.lookup "EDIF.original_identifier" with
  | some v => some v
  | none => a.lookup "EDIF.identifier"

/-- The attribute dictionary of a hierarchy node's item.  Pins and wires
carry no attributes in this model; their hierarchical names use only
their index. -/
def itemAttrs : Item → Attrs
  | .inst d => d.attrs
  | .port p => p.attrs
  | .cable c => c.attrs
  | .pin _ _ => []
  | .wire _ _ => []

/-- The node's own resolved name (`node.get_name()`). -/
def nodeOwnName (nl : Netlist) (π : HPath) : Option String :=
  (resolve nl π).bind fun it => getName (itemAttrs it)

/-- Decimal digit characters, as produced by `str` on an index. -/
def digitChar (d : Nat) : Char :=
  match d with
  | 0 => '0' | 1 => '1' | 2 => '2' | 3 => '3' | 4 => '4'
  | 5 => '5' | 6 => '6' | 7 => '7' | 8 => '8' | _ => '9'

/-- Decimal rendering of a natural number, with explicit fuel. -/
def natStrAux : Nat → Nat → List Char
  | 0, _ => []
  | f + 1, n =>
    if n < 10 then [digitChar n]
    else natStrAux f (n / 10) ++ [digitChar (n % 10)]

/-- Decimal rendering of a natural number (`str(index)` in the source). -/
def natStr (n : Nat) : String :=
  ⟨natStrAux (n + 1) n⟩

/-- `'/'.join(names)`. -/
def joinNames : List String → String
  | [] => ""
  | [x] => x
  | x :: xs => x ++ "/" ++ joinNames xs

/-- The names of the strict ancestors of the node at `π`, in root-to-parent
order; `none` if any ancestor's name is unresolvable (in the source,
`'/'.join` would then raise). -/
def prefixNames (nl : Netlist) (π : HPath) : Option (List String) :=
  (List.range π.length).mapM fun k => nodeOwnName nl (π.take k)

/-- Rendering of an optional name inside `str.format` (`None` renders as
the string "None"). -/
def fmtName : Option String → String
  | some s => s
  | none => "None"

/-- `Node.get_hiearchical_name` (lines 232-247): ancestors' names joined
with `/`; a wire or pin node appends its index in bracket notation; any
other node appends its own name, or is just its own name when the joined
prefix is empty. -/
def getHierName (nl : Netlist) (π : HPath) : Option String :=
  match prefixNames nl π with
  | none => none
  | some names =>
    let pre := joinNames names
    match resolve nl π with
    | some (Item.wire _ i) => some (pre ++ "[" ++ natStr i ++ "]")
    | some (Item.pin _ i) => some (pre ++ "[" ++ natStr i ++ "]")
    | some it =>
      if pre = "" then getName (itemAttrs it)
      else some (pre ++ "/" ++ fmtName (getName (itemAttrs it)))
    | none => none

/-- Does the step descend into a child instance? -/
def isInstStep : Step → Bool
  | .inst _ => true
  | _ => false

/-- Does the path end in an instance step (the last element wraps an
instance)? -/
def instLast (π : HPath) : Bool :=
  match π.getLast? with
  | some (Step.inst _) => true
  | _ => false

/-- Validity of a pin reference within the scope of definition `dd`:
all indices in range (modelled from the spec's well-formedness of the
netlist model). -/
def validPinRefB (nl : Netlist) (dd : DefDecl) : PinRef → Bool
  | .inner p i =>
    match dd.ports[p]? with
    | some pd => decide (i < pd.numPins)
    | none => false
  | .outer j p i =>
    match dd.children[j]? with
    | some ch =>
      match getDef nl ch.ref with
      | some ddc =>
        match ddc.ports[p]? with
        | some pd => decide (i < pd.numPins)
        | none => false
      | none => false
    | none => false

/-- Every instance reference points at an existing definition. -/
def refsOkB (nl : Netlist) : Bool :=
  decide (nl.top.ref < nl.defs.length) &&
  nl.defs.all fun d => d.children.all fun ch => decide (ch.ref < nl.defs.length)

/-- The instantiation relation is ranked (hence acyclic and of finite
hierarchy depth); ranks are normalised to at most the definition count. -/
def rankOkB (nl : Netlist) (rk : Nat → Nat) : Bool :=
  (List.range nl.defs.length).all (fun i => decide (rk i ≤ nl.defs.length)) &&
  nl.defs.enum.all fun de => de.2.children.all fun ch => decide (rk ch.ref < rk de.1)

/-- All pin references of all wires are valid in their scope. -/
def wiresOkB (nl : Netlist) : Bool :=
  nl.defs.all fun dd => dd.cables.all fun c => c.wires.all fun w => w.pins.all (validPinRefB nl dd)

/-- Well-formed netlist: valid references, ranked (finite-depth)
hierarchy, valid wire pin references. -/
def wfB (nl : Netlist) (rk : Nat → Nat) : Bool :=
  refsOkB nl && rankOkB nl rk && wiresOkB nl

/-- The path is a chain of instance steps resolving to an instance node:
the identity of an instance occurrence in the hierarchy. -/
def InstPathOk (nl : Netlist) (σ : HPath) : Prop :=
  (∀ s ∈ σ, isInstStep s = true) ∧ ∃ d, resolve nl σ = some (Item.inst d)

/-- A well-formed wire-node path: a cable step and a wire step below an
instance occurrence, resolving to a wire item. -/
def WireNodeOk (nl : Netlist) (ω : HPath) : Prop :=
  ∃ σ c w, ω = σ ++ [Step.cable c, Step.wire w] ∧ InstPathOk nl σ ∧ (resolve nl ω).isSome

/-- The path identifies a leaf-instance hierarchy node: an instance
occurrence whose referenced definition is a leaf. -/
def isLeafNodeB (nl : Netlist) (π : HPath) : Bool :=
  π.all isInstStep &&
  match resolve nl π with
  | some (.inst d) =>
    match getDef nl d.ref with
    | some dd => isLeafDef dd
    | none => false
  | _ => false

/-- Invariant of the downstream-traversal state on a well-formed netlist:
stack entries are wire nodes, the visited set is a duplicate-free set of
pin nodes of the hierarchy, and every accumulated downstream node is a
selected node (leaf instance, or top port when enabled). -/
structure GoodDS (nl : Netlist) (flag : Bool) (s : DSState) : Prop where
  stackOk : ∀ ω ∈ s.stack, WireNodeOk nl ω
  foundSub : ∀ p ∈ s.found, p ∈ allPinNodes nl
  foundNodup : s.found.Nodup
  dsOk : ∀ d ∈ s.downstream, (isLeafNodeB nl d = true ∧ instLast d = true) ∨
    (flag = true ∧ d ∈ topPortNodes nl)

/-- Removal of a node set from a graph, with every incident edge (the
operation named by the monotonicity property of the spec). -/
def removeNodesFrom (g : DiGraph) (P : Finset HPath) : DiGraph :=
  ⟨g.nodes \ P, g.edges.filter fun e => e.1 ∉ P ∧ e.2 ∉ P⟩

/-- The traversal-seed wires described by the spec for a node wrapping an
instance: one wire node per pin of the instance whose inner-pin port
direction is OUT or INOUT and whose wire is non-null, reached through the
parent's cable/wire hierarchy nodes, in pin order. -/
def seedWiresSpecInst (nl : Netlist) (π : HPath) (d : InstDecl) : List HPath :=
  match getDef nl d.ref with
  | none => []
  | some dd =>
    (defPinPairs dd).filterMap fun pi =>
      match dd.ports[pi.1]? with
      | some pd =>
        if dirOutish pd.direction then
          match π.getLast? with
          | some (Step.inst j) =>
            match resolveCtx nl π.dropLast with
            | some ddP =>
              match pinWire ddP (PinRef.outer j pi.1 pi.2) with
              | some cw => some (π.dropLast ++ [Step.cable cw.1, Step.wire cw.2])
              | none => none
            | none => none
          | _ => none
        else none
      | none => none

/-- The traversal-seed wires described by the spec for a node wrapping a
top-level port: only when the port direction is IN or INOUT, one wire
node per pin of the port with a non-null wire, in pin order. -/
def seedWiresSpecPort (nl : Netlist) (π : HPath) (pd : PortDecl) : List HPath :=
  if dirInish pd.direction then
    (List.range pd.numPins).filterMap fun i =>
      match π.getLast? with
      | some (Step.port p) =>
        match resolveCtx nl π.dropLast with
        | some ddP =>
          match pinWire ddP (PinRef.inner p i) with
          | some cw => some (π.dropLast ++ [Step.cable cw.1, Step.wire cw.2])
          | none => none
        | none => none
      | _ => none
  else []

/-- The children of a hierarchy node as described by the (amended)
specification: an instance node (leaf or not) has one child per port,
per cable and per child instance of its referenced definition, in that
order; a port node has one child per pin; a cable node one per wire;
pin and wire nodes have none. -/
def childrenSpecC5 (nl : Netlist) : Item → List Step
  | .inst d =>
    match getDef nl d.ref with
    | none => []
    | some dd =>
      (List.range dd.ports.length).map Step.port ++
      (List.range dd.cables.length).map Step.cable ++
      (List.range dd.children.length).map Step.inst
  | .port p => (List.range p.numPins).map Step.pin
  | .cable c => (List.range c.wires.length).map Step.wire
  | .pin _ _ => []
  | .wire _ _ => []

/-- Erase the attribute dictionary of a port. -/
def stripPort (p : PortDecl) : PortDecl := ⟨p.direction, p.numPins, []⟩

/-- Erase the attribute dictionary of a cable. -/
def stripCable (c : CableDecl) : CableDecl := ⟨c.wires, []⟩

/-- Erase the attribute dictionary of an instance. -/
def stripInst (d : InstDecl) : InstDecl := ⟨d.ref, []⟩

/-- Erase all attribute dictionaries of a definition's elements. -/
def stripDef (d : DefDecl) : DefDecl :=
  ⟨d.ports.map stripPort, d.cables.map stripCable, d.children.map stripInst⟩

/-- Erase every attribute dictionary of the netlist: the graph topology
must not depend on names. -/
def stripAttrs (nl : Netlist) : Netlist :=
  ⟨nl.defs.map stripDef, stripInst nl.top⟩

/-- Erase the attribute dictionaries of a hierarchy item. -/
def stripItem : Item → Item
  | .inst d => .inst (stripInst d)
  | .port p => .port (stripPort p)
  | .pin p i => .pin (stripPort p) i
  | .cable c => .cable (stripCable c)
  | .wire c i => .wire (stripCable c) i

/-- A leaf definition with one input and one output port of one pin each
(used by the concrete scenarios). -/
def leafDefC1 : DefDecl :=
  ⟨[⟨Direction.IN, 1, [("EDIF.identifier", "I")]⟩,
    ⟨Direction.OUT, 1, [("EDIF.identifier", "O")]⟩], [], []⟩

/-- Top definition of the spec's concrete scenario: input port P_in wired
to the input of leaf instance A, output of A wired to the input of leaf
instance B, output of B wired to output port P_out. -/
def topDefC1 : DefDecl :=
  ⟨[⟨Direction.IN, 1, [("EDIF.identifier", "P_in")]⟩,
    ⟨Direction.OUT, 1, [("EDIF.identifier", "P_out")]⟩],
   [⟨[⟨[PinRef.inner 0 0, PinRef.outer 0 0 0]⟩], [("EDIF.identifier", "w1")]⟩,
    ⟨[⟨[PinRef.outer 0 1 0, PinRef.outer 1 0 0]⟩], [("EDIF.identifier", "w2")]⟩,
    ⟨[⟨[PinRef.outer 1 1 0, PinRef.inner 1 0]⟩], [("EDIF.identifier", "w3")]⟩],
   [⟨0, [("EDIF.identifier", "A")]⟩, ⟨0, [("EDIF.identifier", "B")]⟩]⟩

/-- The spec's concrete scenario netlist. -/
def nlC1 : Netlist := ⟨[leafDefC1, topDefC1], ⟨1, [("EDIF.identifier", "TOP")]⟩⟩

/-- Top definition of a feedback netlist: the output of leaf instance X
feeds the input of leaf instance Y and the output of Y feeds back into
the input of X. -/
def topDefC3 : DefDecl :=
  ⟨[],
   [⟨[⟨[PinRef.outer 0 1 0, PinRef.outer 1 0 0]⟩], [("EDIF.identifier", "fw1")]⟩,
    ⟨[⟨[PinRef.outer 1 1 0, PinRef.outer 0 0 0]⟩], [("EDIF.identifier", "fw2")]⟩],
   [⟨0, [("EDIF.identifier", "X")]⟩, ⟨0, [("EDIF.identifier", "Y")]⟩]⟩

/-- A netlist containing a combinational feedback loop among leaf
components. -/
def nlC3 : Netlist := ⟨[leafDefC1, topDefC3], ⟨1, [("EDIF.identifier", "TOP")]⟩⟩

/-- A netlist whose single leaf instance carries no attribute at all
(neither the preferred nor the generated identifier). -/
def nlC6 : Netlist :=
  ⟨[⟨[], [], []⟩, ⟨[], [], [⟨0, []⟩]⟩], ⟨1, [("EDIF.identifier", "TOP")]⟩⟩

/-- A netlist whose top definition has two distinct ports carrying the
same name attributes. -/
def nlC7 : Netlist :=
  ⟨[⟨[⟨Direction.IN, 1, [("EDIF.identifier", "P")]⟩,
      ⟨Direction.OUT, 1, [("EDIF.identifier", "P")]⟩], [], []⟩],
   ⟨0, [("EDIF.identifier", "TOP")]⟩⟩

/-- Numeric value of a decimal digit character. -/
def digitVal (c : Char) : Nat :=
  match c with
  | '0' => 0 | '1' => 1 | '2' => 2 | '3' => 3 | '4' => 4
  | '5' => 5 | '6' => 6 | '7' => 7 | '8' => 8 | _ => 9

/-- Parse a decimal digit string back to the number it denotes. -/
def parseDec (l : List Char) : Nat :=
  l.foldl (fun a c => a * 10 + digitVal c) 0

/-! ## Basic lemmas about path resolution -/

theorem resolveFrom_append (nl : Netlist) (it : Item) (σ τ : HPath) :
    resolveFrom nl it (σ ++ τ) = (resolveFrom nl it σ).bind fun it2 => resolveFrom nl it2 τ := by
  induction σ generalizing it with
  | nil => simp [resolveFrom]
  | cons s σ ih =>
    simp only [List.cons_append, resolveFrom]
    cases stepItem nl it s with
    | none => simp
    | some it2 => simp [ih]

theorem resolve_append (nl : Netlist) (σ τ : HPath) :
    resolve nl (σ ++ τ) = (resolve nl σ).bind fun it => resolveFrom nl it τ := by
  simp [resolve, resolveFrom_append]

theorem getElem?_isSome_iff {α : Type} (l : List α) (i : Nat) :
    (l[i]?).isSome = true ↔ i < l.length := by
  rw [List.getElem?_eq]
  simp

theorem resolve_snoc (nl : Netlist) (π : HPath) (s : Step) :
    resolve nl (π ++ [s]) = (resolve nl π).bind fun it => stepItem nl it s := by
  rw [resolve_append]
  cases resolve nl π with
  | none => rfl
  | some it =>
    simp only [Option.some_bind, resolveFrom]
    cases stepItem nl it s <;> simp [resolveFrom]

theorem mem_childSteps_iff (nl : Netlist) (it : Item) (s : Step) :
    s ∈ childSteps nl it ↔ (stepItem nl it s).isSome := by
  cases it with
  | inst d =>
    cases hd : getDef nl d.ref with
    | none => cases s <;> simp [childSteps, stepItem, hd]
    | some dd =>
      cases s <;>
        simp [childSteps, stepItem, hd, List.mem_append, List.mem_map, List.mem_range,
          Option.isSome_map, getElem?_isSome_iff]
  | port p =>
    cases s <;> simp [childSteps, stepItem, List.mem_map, List.mem_range]
  | cable c =>
    cases s <;> simp [childSteps, stepItem, List.mem_map, List.mem_range]
  | pin p i => cases s <;> simp [childSteps, stepItem]
  | wire c i => cases s <;> simp [childSteps, stepItem]

/-! ## Lemmas about wire lookup -/

theorem findWireInWires_spec (pr : PinRef) (l : List WireDecl) (w : Nat)
    (h : findWireInWires pr l = some w) :
    ∃ wd, l[w]? = some wd ∧ pr ∈ wd.pins := by
  induction l generalizing w with
  | nil => simp [findWireInWires] at h
  | cons wd0 ws ih =>
    by_cases hm : pr ∈ wd0.pins
    · simp [findWireInWires, hm] at h
      exact ⟨wd0, by simp [← h], hm⟩
    · simp [findWireInWires, hm] at h
      obtain ⟨w0, hw0, hw⟩ := h
      obtain ⟨wd, hwd, hmem⟩ := ih w0 hw0
      exact ⟨wd, by simp [← hw, hwd], hmem⟩

theorem findWireIdx_spec (pr : PinRef) (cs : List CableDecl) (c w : Nat)
    (h : findWireIdx pr cs = some (c, w)) :
    ∃ cd wd, cs[c]? = some cd ∧ cd.wires[w]? = some wd ∧ pr ∈ wd.pins := by
  induction cs generalizing c w with
  | nil => simp [findWireIdx] at h
  | cons cd0 rest ih =>
    cases hf : findWireInWires pr cd0.wires with
    | some w0 =>
      simp [findWireIdx, hf] at h
      obtain ⟨wd, hwd, hmem⟩ := findWireInWires_spec pr cd0.wires w0 hf
      exact ⟨cd0, wd, by simp [← h.1], by rw [← h.2]; exact hwd, hmem⟩
    | none =>
      cases hr : findWireIdx pr rest with
      | none => simp [findWireIdx, hf, hr] at h
      | some q =>
        simp [findWireIdx, hf, hr] at h
        obtain ⟨cd, wd, hcd, hwd, hmem⟩ := ih q.1 q.2 (by rw [hr])
        refine ⟨cd, wd, ?_, ?_, hmem⟩
        · rw [← h.1]
          simpa using hcd
        · rw [← h.2]
          exact hwd

/-! ## Shape of valid hierarchy paths -/

theorem resolveFrom_cons (nl : Netlist) (it : Item) (s : Step) (π : HPath) :
    resolveFrom nl it (s :: π) = (stepItem nl it s).bind fun it2 => resolveFrom nl it2 π := by
  cases h : stepItem nl it s <;> simp [resolveFrom, h]

theorem resolveFrom_pin (nl : Netlist) (p : PortDecl) (i : Nat) (π : HPath) (it : Item)
    (h : resolveFrom nl (Item.pin p i) π = some it) : π = [] ∧ it = Item.pin p i := by
  cases π with
  | nil => simpa [resolveFrom] using h.symm
  | cons s rest =>
    rw [resolveFrom_cons] at h
    cases s <;> simp [stepItem] at h

theorem resolveFrom_wireIt (nl : Netlist) (c : CableDecl) (i : Nat) (π : HPath) (it : Item)
    (h : resolveFrom nl (Item.wire c i) π = some it) : π = [] ∧ it = Item.wire c i := by
  cases π with
  | nil => simpa [resolveFrom] using h.symm
  | cons s rest =>
    rw [resolveFrom_cons] at h
    cases s <;> simp [stepItem] at h

theorem resolveFrom_portIt (nl : Netlist) (p : PortDecl) (π : HPath) (it : Item)
    (h : resolveFrom nl (Item.port p) π = some it) :
    (π = [] ∧ it = Item.port p) ∨ ∃ i, π = [Step.pin i] ∧ it = Item.pin p i := by
  cases π with
  | nil =>
    left
    simpa [resolveFrom] using h.symm
  | cons s rest =>
    rw [resolveFrom_cons] at h
    cases s with
    | pin i =>
      right
      simp only [stepItem] at h
      by_cases hlt : i < p.numPins
      · rw [if_pos hlt] at h
        simp only [Option.some_bind] at h
        obtain ⟨hr, hit⟩ := resolveFrom_pin nl p i rest it h
        exact ⟨i, by simp [hr], hit⟩
      · rw [if_neg hlt] at h
        simp at h
    | port i => simp [stepItem] at h
    | cable i => simp [stepItem] at h
    | inst i => simp [stepItem] at h
    | wire i => simp [stepItem] at h

theorem resolveFrom_cableIt (nl : Netlist) (c : CableDecl) (π : HPath) (it : Item)
    (h : resolveFrom nl (Item.cable c) π = some it) :
    (π = [] ∧ it = Item.cable c) ∨ ∃ i, π = [Step.wire i] ∧ it = Item.wire c i := by
  cases π with
  | nil =>
    left
    simpa [resolveFrom] using h.symm
  | cons s rest =>
    rw [resolveFrom_cons] at h
    cases s with
    | wire i =>
      right
      simp only [stepItem] at h
      by_cases hlt : i < c.wires.length
      · rw [if_pos hlt] at h
        simp only [Option.some_bind] at h
        obtain ⟨hr, hit⟩ := resolveFrom_wireIt nl c i rest it h
        exact ⟨i, by simp [hr], hit⟩
      · rw [if_neg hlt] at h
        simp at h
    | port i => simp [stepItem] at h
    | cable i => simp [stepItem] at h
    | inst i => simp [stepItem] at h
    | pin i => simp [stepItem] at h

theorem pureInst_of_resolveFrom_inst (nl : Netlist) (d d2 : InstDecl) (π : HPath)
    (h : resolveFrom nl (Item.inst d) π = some (Item.inst d2)) :
    ∀ s ∈ π, isInstStep s = true := by
  induction π generalizing d with
  | nil => simp
  | cons s rest ih =>
    rw [resolveFrom_cons] at h
    cases s with
    | inst j =>
      simp only [stepItem] at h
      cases hd : getDef nl d.ref with
      | none => simp [hd] at h
      | some dd =>
        cases hc : dd.children[j]? with
        | none => simp [hd, hc] at h
        | some ch =>
          simp only [hd, hc, Option.some_bind, Option.map_some'] at h
          intro t ht
          rcases List.mem_cons.mp ht with rfl | ht2
          · rfl
          · exact ih ch h t ht2
    | port i =>
      simp only [stepItem] at h
      cases hd : getDef nl d.ref with
      | none => simp [hd] at h
      | some dd =>
        cases hp : dd.ports[i]? with
        | none => simp [hd, hp] at h
        | some pd =>
          simp only [hd, hp, Option.some_bind, Option.map_some'] at h
          rcases resolveFrom_portIt nl pd rest _ h with ⟨_, heq⟩ | ⟨_, _, heq⟩ <;> simp at heq
    | cable i =>
      simp only [stepItem] at h
      cases hd : getDef nl d.ref with
      | none => simp [hd] at h
      | some dd =>
        cases hp : dd.cables[i]? with
        | none => simp [hd, hp] at h
        | some cd =>
          simp only [hd, hp, Option.some_bind, Option.map_some'] at h
          rcases resolveFrom_cableIt nl cd rest _ h with ⟨_, heq⟩ | ⟨_, _, heq⟩ <;> simp at heq
    | pin i => simp [stepItem] at h
    | wire i => simp [stepItem] at h

/-! ## Well-formedness extraction and length bounds -/

theorem wf_split (nl : Netlist) (rk : Nat → Nat) (h : wfB nl rk = true) :
    refsOkB nl = true ∧ rankOkB nl rk = true ∧ wiresOkB nl = true := by
  simpa [wfB, Bool.and_eq_true, and_assoc] using h

theorem rank_lt_of_child (nl : Netlist) (rk : Nat → Nat) (hwf : wfB nl rk = true)
    (r : Nat) (dd : DefDecl) (hd : getDef nl r = some dd)
    (ch : InstDecl) (hch : ch ∈ dd.children) : rk ch.ref < rk r := by
  have hr := (wf_split nl rk hwf).2.1
  simp only [rankOkB, Bool.and_eq_true, List.all_eq_true] at hr
  have hmem : (r, dd) ∈ nl.defs.enum := List.mk_mem_enum_iff_getElem?.mpr hd
  have := hr.2 (r, dd) hmem ch hch
  simpa using this

theorem rank_le_defs (nl : Netlist) (rk : Nat → Nat) (hwf : wfB nl rk = true)
    (r : Nat) (hr : r < nl.defs.length) : rk r ≤ nl.defs.length := by
  have h := (wf_split nl rk hwf).2.1
  simp only [rankOkB, Bool.and_eq_true, List.all_eq_true] at h
  have := h.1 r (List.mem_range.mpr hr)
  simpa using this

theorem top_ref_lt (nl : Netlist) (rk : Nat → Nat) (hwf : wfB nl rk = true) :
    nl.top.ref < nl.defs.length := by
  have h := (wf_split nl rk hwf).1
  simp only [refsOkB, Bool.and_eq_true, decide_eq_true_eq] at h
  exact h.1

theorem wf_pinRef (nl : Netlist) (rk : Nat → Nat) (hwf : wfB nl rk = true)
    (dd : DefDecl) (hd : dd ∈ nl.defs) (cd : CableDecl) (hc : cd ∈ dd.cables)
    (wd : WireDecl) (hw : wd ∈ cd.wires) (pr : PinRef) (hp : pr ∈ wd.pins) :
    validPinRefB nl dd pr = true := by
  have h := (wf_split nl rk hwf).2.2
  simp only [wiresOkB, List.all_eq_true] at h
  exact h dd hd cd hc wd hw pr hp

theorem pureInst_length_le (nl : Netlist) (rk : Nat → Nat) (hwf : wfB nl rk = true) :
    ∀ (π : HPath) (d : InstDecl) (it : Item), (∀ s ∈ π, isInstStep s = true) →
      resolveFrom nl (Item.inst d) π = some it → π.length ≤ rk d.ref + 1 := by
  intro π
  induction π with
  | nil => simp
  | cons s rest ih =>
    intro d it hpure h
    rw [resolveFrom_cons] at h
    cases s with
    | inst j =>
      simp only [stepItem] at h
      cases hd : getDef nl d.ref with
      | none => simp [hd] at h
      | some dd =>
        cases hc : dd.children[j]? with
        | none => simp [hd, hc] at h
        | some ch =>
          simp only [hd, hc, Option.some_bind, Option.map_some'] at h
          have hrest : rest.length ≤ rk ch.ref + 1 :=
            ih ch it (fun t ht => hpure t (List.mem_cons_of_mem _ ht)) h
          have hlt : rk ch.ref < rk d.ref :=
            rank_lt_of_child nl rk hwf d.ref dd hd ch (List.getElem?_mem hc)
          simp only [List.length_cons]
          omega
    | port i => exact absurd (hpure _ (List.mem_cons_self _ _)) (by simp [isInstStep])
    | cable i => exact absurd (hpure _ (List.mem_cons_self _ _)) (by simp [isInstStep])
    | pin i => simp [stepItem] at h
    | wire i => simp [stepItem] at h

theorem resolveFrom_inst_length (nl : Netlist) (rk : Nat → Nat) (hwf : wfB nl rk = true) :
    ∀ (π : HPath) (d : InstDecl) (it : Item),
      resolveFrom nl (Item.inst d) π = some it → π.length ≤ rk d.ref + 3 := by
  intro π
  induction π with
  | nil => simp
  | cons s rest ih =>
    intro d it h
    rw [resolveFrom_cons] at h
    cases s with
    | inst j =>
      simp only [stepItem] at h
      cases hd : getDef nl d.ref with
      | none => simp [hd] at h
      | some dd =>
        cases hc : dd.children[j]? with
        | none => simp [hd, hc] at h
        | some ch =>
          simp only [hd, hc, Option.some_bind, Option.map_some'] at h
          have hrest := ih ch it h
          have hlt : rk ch.ref < rk d.ref :=
            rank_lt_of_child nl rk hwf d.ref dd hd ch (List.getElem?_mem hc)
          simp only [List.length_cons]
          omega
    | port i =>
      simp only [stepItem] at h
      cases hd : getDef nl d.ref with
      | none => simp [hd] at h
      | some dd =>
        cases hp : dd.ports[i]? with
        | none => simp [hd, hp] at h
        | some pd =>
          simp only [hd, hp, Option.some_bind, Option.map_some'] at h
          rcases resolveFrom_portIt nl pd rest it h with ⟨hr, _⟩ | ⟨k, hr, _⟩ <;>
            simp [hr]
    | cable i =>
      simp only [stepItem] at h
      cases hd : getDef nl d.ref with
      | none => simp [hd] at h
      | some dd =>
        cases hp : dd.cables[i]? with
        | none => simp [hd, hp] at h
        | some cd =>
          simp only [hd, hp, Option.some_bind, Option.map_some'] at h
          rcases resolveFrom_cableIt nl cd rest it h with ⟨hr, _⟩ | ⟨k, hr, _⟩ <;>
            simp [hr]
    | pin i => simp [stepItem] at h
    | wire i => simp [stepItem] at h

theorem resolve_length_le (nl : Netlist) (rk : Nat → Nat) (hwf : wfB nl rk = true)
    (π : HPath) (h : (resolve nl π).isSome = true) : π.length ≤ nl.defs.length + 3 := by
  obtain ⟨it, hit⟩ := Option.isSome_iff_exists.mp h
  have h1 := resolveFrom_inst_length nl rk hwf π nl.top it hit
  have h2 := rank_le_defs nl rk hwf nl.top.ref (top_ref_lt nl rk hwf)
  omega

theorem pureInst_resolve_length (nl : Netlist) (rk : Nat → Nat) (hwf : wfB nl rk = true)
    (σ : HPath) (hσ : InstPathOk nl σ) : σ.length ≤ nl.defs.length + 1 := by
  obtain ⟨hpure, d, hd⟩ := hσ
  have h1 := pureInst_length_le nl rk hwf σ nl.top (Item.inst d) hpure hd
  have h2 := rank_le_defs nl rk hwf nl.top.ref (top_ref_lt nl rk hwf)
  omega

theorem resolveFrom_pureInst_isInst (nl : Netlist) :
    ∀ (π : HPath) (d : InstDecl) (it : Item), (∀ s ∈ π, isInstStep s = true) →
      resolveFrom nl (Item.inst d) π = some it → ∃ d2, it = Item.inst d2 := by
  intro π
  induction π with
  | nil =>
    intro d it _ h
    exact ⟨d, by simpa [resolveFrom] using h.symm⟩
  | cons s rest ih =>
    intro d it hpure h
    rw [resolveFrom_cons] at h
    cases s with
    | inst j =>
      simp only [stepItem] at h
      cases hd : getDef nl d.ref with
      | none => simp [hd] at h
      | some dd =>
        cases hc : dd.children[j]? with
        | none => simp [hd, hc] at h
        | some ch =>
          simp only [hd, hc, Option.some_bind, Option.map_some'] at h
          exact ih ch it (fun t ht => hpure t (List.mem_cons_of_mem _ ht)) h
    | port i => exact absurd (hpure _ (List.mem_cons_self _ _)) (by simp [isInstStep])
    | cable i => exact absurd (hpure _ (List.mem_cons_self _ _)) (by simp [isInstStep])
    | pin i => simp [stepItem] at h
    | wire i => simp [stepItem] at h

/-! ## Arithmetic helpers -/

theorem le_foldr_max (l : List Nat) (x : Nat) (hx : x ∈ l) : x ≤ l.foldr max 0 := by
  induction l with
  | nil => simp at hx
  | cons y ys ih =>
    rcases List.mem_cons.mp hx with rfl | hx2
    · exact le_max_left _ _
    · exact le_trans (ih hx2) (le_max_right _ _)

theorem wirePins_le_max (nl : Netlist) (dd : DefDecl) (cd : CableDecl) (wd : WireDecl)
    (hd : dd ∈ nl.defs) (hc : cd ∈ dd.cables) (hw : wd ∈ cd.wires) :
    wd.pins.length ≤ maxWirePins nl := by
  have h1 : wd.pins.length ≤ (cd.wires.map fun w => w.pins.length).foldr max 0 :=
    le_foldr_max _ _ (List.mem_map_of_mem _ hw)
  have h2 : (cd.wires.map fun w => w.pins.length).foldr max 0 ≤
      (dd.cables.map fun c => (c.wires.map fun w => w.pins.length).foldr max 0).foldr max 0 :=
    le_foldr_max _ _ (List.mem_map_of_mem _ hc)
  have h3 : (dd.cables.map fun c => (c.wires.map fun w => w.pins.length).foldr max 0).foldr max 0 ≤
      maxWirePins nl :=
    le_foldr_max _ _ (List.mem_map_of_mem _ hd)
  omega

/-! ## Children uniqueness and enumeration completeness -/

theorem childSteps_nodup (nl : Netlist) (it : Item) : (childSteps nl it).Nodup := by
  cases it with
  | inst d =>
    cases hd : getDef nl d.ref with
    | none => simp [childSteps, hd]
    | some dd =>
      simp only [childSteps, hd]
      rw [List.nodup_append, List.nodup_append]
      refine ⟨⟨List.Nodup.map (fun a b => by simp) (List.nodup_range _),
        List.Nodup.map (fun a b => by simp) (List.nodup_range _), ?_⟩,
        List.Nodup.map (fun a b => by simp) (List.nodup_range _), ?_⟩
      · intro x hx hy
        simp only [List.mem_map] at hx hy
        obtain ⟨a, _, rfl⟩ := hx
        obtain ⟨b, _, hb⟩ := hy
        simp at hb
      · intro x hx hy
        simp only [List.mem_append, List.mem_map] at hx hy
        obtain ⟨b, _, hb⟩ := hy
        rcases hx with ⟨a, _, rfl⟩ | ⟨a, _, rfl⟩ <;> simp at hb
  | port p => exact List.Nodup.map (fun a b => by simp) (List.nodup_range _)
  | cable c => exact List.Nodup.map (fun a b => by simp) (List.nodup_range _)
  | pin p i => simp [childSteps]
  | wire c i => simp [childSteps]

theorem mem_topPortNodes_iff (nl : Netlist) (π : HPath) :
    π ∈ topPortNodes nl ↔
      ∃ p dd, π = [Step.port p] ∧ getDef nl nl.top.ref = some dd ∧ p < dd.ports.length := by
  constructor
  · intro h
    simp only [topPortNodes, List.mem_filterMap] at h
    obtain ⟨s, hs, hmatch⟩ := h
    cases s with
    | port p =>
      simp only [Option.some_inj] at hmatch
      rw [mem_childSteps_iff] at hs
      simp only [stepItem] at hs
      cases hd : getDef nl nl.top.ref with
      | none => rw [hd] at hs; simp at hs
      | some dd =>
        rw [hd] at hs
        simp only [Option.some_bind, Option.isSome_map', getElem?_isSome_iff] at hs
        exact ⟨p, dd, hmatch.symm, rfl, hs⟩
    | cable i => simp at hmatch
    | inst i => simp at hmatch
    | pin i => simp at hmatch
    | wire i => simp at hmatch
  · rintro ⟨p, dd, rfl, hd, hp⟩
    simp only [topPortNodes, List.mem_filterMap]
    refine ⟨Step.port p, ?_, rfl⟩
    rw [mem_childSteps_iff]
    simp [stepItem, hd, getElem?_isSome_iff, hp]

theorem pinNodes_complete (nl : Netlist) :
    ∀ (σι : HPath) (fuel : Nat) (d : InstDecl) (σpre : HPath) (d2 : InstDecl) (dd : DefDecl)
      (p i : Nat) (pd : PortDecl),
      σι.length < fuel → (∀ s ∈ σι, isInstStep s = true) →
      resolveFrom nl (Item.inst d) σι = some (Item.inst d2) →
      getDef nl d2.ref = some dd → dd.ports[p]? = some pd → i < pd.numPins →
      (σpre ++ σι) ++ [Step.port p, Step.pin i] ∈ pinNodesFrom nl fuel d σpre := by
  intro σι
  induction σι with
  | nil =>
    intro fuel d σpre d2 dd p i pd hfuel _ hres hdd hp hi
    have hd2 : d2 = d := by simpa [resolveFrom] using hres.symm
    subst hd2
    cases fuel with
    | zero => omega
    | succ f =>
      simp only [pinNodesFrom, hdd, List.mem_append]
      left
      simp only [List.mem_flatMap, List.mem_map]
      exact ⟨(p, pd), List.mk_mem_enum_iff_getElem?.mpr hp,
        i, List.mem_range.mpr hi, by simp⟩
  | cons s rest ih =>
    intro fuel d σpre d2 dd p i pd hfuel hpure hres hdd hp hi
    rw [resolveFrom_cons] at hres
    cases s with
    | inst j =>
      simp only [stepItem] at hres
      cases hd0 : getDef nl d.ref with
      | none => simp [hd0] at hres
      | some dd0 =>
        cases hc : dd0.children[j]? with
        | none => simp [hd0, hc] at hres
        | some ch =>
          simp only [hd0, hc, Option.some_bind, Option.map_some'] at hres
          cases fuel with
          | zero => omega
          | succ f =>
            simp only [pinNodesFrom, hd0, List.mem_append]
            right
            simp only [List.mem_flatMap]
            refine ⟨(j, ch), List.mk_mem_enum_iff_getElem?.mpr hc, ?_⟩
            have := ih f ch (σpre ++ [Step.inst j]) d2 dd p i pd
              (by simpa using Nat.lt_of_succ_lt_succ hfuel)
              (fun t ht => hpure t (List.mem_cons_of_mem _ ht)) hres hdd hp hi
            simpa using this
    | port k => exact absurd (hpure _ (List.mem_cons_self _ _)) (by simp [isInstStep])
    | cable k => exact absurd (hpure _ (List.mem_cons_self _ _)) (by simp [isInstStep])
    | pin k => simp [stepItem] at hres
    | wire k => simp [stepItem] at hres

theorem mem_allPinNodes (nl : Netlist) (rk : Nat → Nat) (hwf : wfB nl rk = true)
    (σι : HPath) (d2 : InstDecl) (dd : DefDecl) (p i : Nat) (pd : PortDecl)
    (hpure : ∀ s ∈ σι, isInstStep s = true)
    (hres : resolve nl σι = some (Item.inst d2))
    (hdd : getDef nl d2.ref = some dd) (hp : dd.ports[p]? = some pd) (hi : i < pd.numPins) :
    σι ++ [Step.port p, Step.pin i] ∈ allPinNodes nl := by
  have hlen : σι.length ≤ nl.defs.length + 1 :=
    pureInst_resolve_length nl rk hwf σι ⟨hpure, d2, hres⟩
  have := pinNodes_complete nl σι (nl.defs.length + 2) nl.top [] d2 dd p i pd
    (by omega) hpure hres hdd hp hi
  simpa [allPinNodes] using this

/-! ## Building well-formed wire nodes -/

theorem resolve_append_of (nl : Netlist) (σ τ : HPath) (it it2 : Item)
    (h1 : resolve nl σ = some it) (h2 : resolveFrom nl it τ = some it2) :
    resolve nl (σ ++ τ) = some it2 := by
  rw [resolve_append, h1]
  simpa using h2

theorem wireNodeOk_build (nl : Netlist) (σ : HPath) (d : InstDecl) (dd : DefDecl)
    (pr : PinRef) (c w : Nat)
    (hpure : ∀ s ∈ σ, isInstStep s = true)
    (hres : resolve nl σ = some (Item.inst d))
    (hdd : getDef nl d.ref = some dd)
    (hfind : findWireIdx pr dd.cables = some (c, w)) :
    WireNodeOk nl (σ ++ [Step.cable c, Step.wire w]) := by
  obtain ⟨cd, wd, hcd, hwd, _⟩ := findWireIdx_spec pr dd.cables c w hfind
  refine ⟨σ, c, w, rfl, ⟨hpure, d, hres⟩, ?_⟩
  have hwlt : w < cd.wires.length := by
    have := getElem?_isSome_iff cd.wires w
    simp [hwd] at this
    exact this
  have hstep : resolveFrom nl (Item.inst d) [Step.cable c, Step.wire w] =
      some (Item.wire cd w) := by
    rw [resolveFrom_cons]
    simp only [stepItem, hdd, hcd, Option.some_bind, Option.map_some']
    rw [resolveFrom_cons]
    simp [stepItem, hwlt, resolveFrom]
  rw [resolve_append_of nl σ _ _ _ hres hstep]
  rfl

/-! ## Small structural helpers for the traversal proofs -/

theorem dropLast_two (σ : HPath) (a b : Step) :
    ((σ ++ [a, b]).dropLast).dropLast = σ := by
  have h1 : σ ++ [a, b] = (σ ++ [a]) ++ [b] := by simp
  rw [h1, List.dropLast_concat, List.dropLast_concat]

theorem resolveCtx_elim (nl : Netlist) (σ : HPath) (dd : DefDecl)
    (h : resolveCtx nl σ = some dd) :
    ∃ d, resolve nl σ = some (Item.inst d) ∧ getDef nl d.ref = some dd := by
  unfold resolveCtx at h
  cases hres : resolve nl σ with
  | none => rw [hres] at h; simp at h
  | some it =>
    rw [hres] at h
    cases it with
    | inst d => exact ⟨d, rfl, h⟩
    | port p => simp at h
    | pin p i => simp at h
    | cable c => simp at h
    | wire c i => simp at h

theorem resolveCtx_intro (nl : Netlist) (σ : HPath) (d : InstDecl)
    (h : resolve nl σ = some (Item.inst d)) :
    resolveCtx nl σ = getDef nl d.ref := by
  unfold resolveCtx
  rw [h]

theorem valid_inner (nl : Netlist) (dd : DefDecl) (p i : Nat)
    (h : validPinRefB nl dd (PinRef.inner p i) = true) :
    ∃ pd, dd.ports[p]? = some pd ∧ i < pd.numPins := by
  have h2 : (match dd.ports[p]? with
      | some pd => decide (i < pd.numPins)
      | none => false) = true := h
  cases hp : dd.ports[p]? with
  | none => rw [hp] at h2; simp at h2
  | some pd =>
    rw [hp] at h2
    simp at h2
    exact ⟨pd, rfl, h2⟩

theorem valid_outer (nl : Netlist) (dd : DefDecl) (j p i : Nat)
    (h : validPinRefB nl dd (PinRef.outer j p i) = true) :
    ∃ ch ddc pd, dd.children[j]? = some ch ∧ getDef nl ch.ref = some ddc ∧
      ddc.ports[p]? = some pd ∧ i < pd.numPins := by
  have h2 : (match dd.children[j]? with
      | some ch =>
        match getDef nl ch.ref with
        | some ddc =>
          match ddc.ports[p]? with
          | some pd => decide (i < pd.numPins)
          | none => false
        | none => false
      | none => false) = true := h
  cases hc : dd.children[j]? with
  | none => rw [hc] at h2; simp at h2
  | some ch =>
    rw [hc] at h2
    simp only [] at h2
    cases hd : getDef nl ch.ref with
    | none => rw [hd] at h2; simp at h2
    | some ddc =>
      rw [hd] at h2
      simp only [] at h2
      cases hp : ddc.ports[p]? with
      | none => rw [hp] at h2; simp at h2
      | some pd =>
        rw [hp] at h2
        simp at h2
        exact ⟨ch, ddc, pd, rfl, hd, hp, h2⟩

theorem pure_dropLast (σ : HPath) (hpure : ∀ s ∈ σ, isInstStep s = true) :
    ∀ s ∈ σ.dropLast, isInstStep s = true :=
  fun s hs => hpure s (List.dropLast_subset σ hs)

theorem instPathOk_snoc (nl : Netlist) (σ : HPath) (j : Nat) (d : InstDecl) (dd : DefDecl)
    (ch : InstDecl) (hσ : InstPathOk nl σ) (hres : resolve nl σ = some (Item.inst d))
    (hdd : getDef nl d.ref = some dd) (hch : dd.children[j]? = some ch) :
    InstPathOk nl (σ ++ [Step.inst j]) ∧ resolve nl (σ ++ [Step.inst j]) = some (Item.inst ch) := by
  have hres2 : resolve nl (σ ++ [Step.inst j]) = some (Item.inst ch) := by
    rw [resolve_snoc, hres]
    simp [stepItem, hdd, hch]
  refine ⟨⟨?_, ch, hres2⟩, hres2⟩
  intro s hs
  rcases List.mem_append.mp hs with h1 | h2
  · exact hσ.1 s h1
  · simp at h2
    simp [h2, isInstStep]

theorem wireNodeOk_elim (nl : Netlist) (ω : HPath) (h : WireNodeOk nl ω) :
    ∃ σ c w d dd cd, ω = σ ++ [Step.cable c, Step.wire w] ∧
      (∀ s ∈ σ, isInstStep s = true) ∧ resolve nl σ = some (Item.inst d) ∧
      getDef nl d.ref = some dd ∧ dd.cables[c]? = some cd ∧ w < cd.wires.length ∧
      resolve nl ω = some (Item.wire cd w) ∧ resolveCtx nl σ = some dd := by
  obtain ⟨σ, c, w, rfl, ⟨hpure, d, hres⟩, hsome⟩ := h
  have hsplit : resolve nl (σ ++ [Step.cable c, Step.wire w]) =
      resolveFrom nl (Item.inst d) [Step.cable c, Step.wire w] := by
    rw [resolve_append, hres]
    simp
  rw [hsplit] at hsome
  rw [resolveFrom_cons] at hsome
  simp only [stepItem] at hsome
  cases hdd : getDef nl d.ref with
  | none => rw [hdd] at hsome; simp at hsome
  | some dd =>
    rw [hdd] at hsome
    simp only [Option.some_bind] at hsome
    cases hcd : dd.cables[c]? with
    | none => rw [hcd] at hsome; simp at hsome
    | some cd =>
      rw [hcd] at hsome
      simp only [Option.some_bind, Option.map_some'] at hsome
      rw [resolveFrom_cons] at hsome
      simp only [stepItem] at hsome
      by_cases hw : w < cd.wires.length
      · refine ⟨σ, c, w, d, dd, cd, rfl, hpure, hres, hdd, hcd, hw, ?_, ?_⟩
        · rw [hsplit, resolveFrom_cons]
          simp only [stepItem, hdd, hcd, Option.some_bind, Option.map_some']
          rw [resolveFrom_cons]
          simp [stepItem, hw, resolveFrom]
        · rw [resolveCtx_intro nl σ d hres, hdd]
      · rw [if_neg hw] at hsome
        simp at hsome

/-! ## One-pin step specification -/

theorem processPin_spec (nl : Netlist) (rk : Nat → Nat) (flag : Bool)
    (hwf : wfB nl rk = true) (σι : HPath) (dd : DefDecl)
    (hσ : InstPathOk nl σι) (hctx : resolveCtx nl σι = some dd)
    (pr : PinRef) (hpr : validPinRefB nl dd pr = true)
    (s s2 : DSState) (hs2 : s2 = processPin nl flag σι s pr) :
    (s2.found = s.found ∨ ∃ q, q ∉ s.found ∧ q ∈ allPinNodes nl ∧ s2.found = q :: s.found) ∧
    (s2.stack = s.stack ∨ ∃ ω2, s2.stack = ω2 :: s.stack ∧ WireNodeOk nl ω2 ∧
      (s2.found.length = s.found.length + 1 ∨ ω2.length = σι.length + 3)) ∧
    (s2.downstream = s.downstream ∨ ∃ dn, s2.downstream = s.downstream ++ [dn] ∧
      ((isLeafNodeB nl dn = true ∧ instLast dn = true) ∨
        (flag = true ∧ dn ∈ topPortNodes nl))) := by
  obtain ⟨d0, hres0, hdd0⟩ := resolveCtx_elim nl σι dd hctx
  cases pr with
  | inner p i =>
    obtain ⟨pd, hp, hi⟩ := valid_inner nl dd p i hpr
    simp only [processPin] at hs2
    by_cases hmem : σι ++ [Step.port p, Step.pin i] ∈ s.found
    · rw [if_pos hmem] at hs2
      subst hs2
      exact ⟨Or.inl rfl, Or.inl rfl, Or.inl rfl⟩
    · rw [if_neg hmem] at hs2
      have hmemAll : σι ++ [Step.port p, Step.pin i] ∈ allPinNodes nl :=
        mem_allPinNodes nl rk hwf σι d0 dd p i pd hσ.1 hres0 hdd0 hp hi
      have hfoundR : (σι ++ [Step.port p, Step.pin i]) :: s.found = (σι ++ [Step.port p, Step.pin i]) :: s.found → True := fun _ => trivial
      cases hlast : σι.getLast? with
      | none =>
        have hσnil : σι = [] := List.getLast?_eq_none_iff.mp hlast
        rw [hlast] at hs2
        subst hσnil
        have hd0top : d0 = nl.top := by
          have : Item.inst nl.top = Item.inst d0 := by
            simpa [resolve, resolveFrom] using hres0
          simpa using this.symm
        subst hd0top
        have hplt : p < dd.ports.length := by
          have := getElem?_isSome_iff dd.ports p
          simp [hp] at this
          exact this
        have htp : [Step.port p] ∈ topPortNodes nl :=
          (mem_topPortNodes_iff nl [Step.port p]).mpr ⟨p, dd, rfl, hdd0, hplt⟩
        cases flag with
        | true =>
          rw [if_pos rfl] at hs2
          subst hs2
          refine ⟨Or.inr ⟨_, hmem, hmemAll, rfl⟩, Or.inl rfl, Or.inr ⟨[Step.port p], ?_, Or.inr ⟨rfl, htp⟩⟩⟩
          simp
        | false =>
          rw [if_neg (by simp)] at hs2
          subst hs2
          exact ⟨Or.inr ⟨_, hmem, hmemAll, rfl⟩, Or.inl rfl, Or.inl rfl⟩
      | some st =>
        rw [hlast] at hs2
        cases st with
        | inst j =>
          cases hctxP : resolveCtx nl σι.dropLast with
          | none =>
            simp only [hctxP] at hs2
            subst hs2
            exact ⟨Or.inr ⟨_, hmem, hmemAll, rfl⟩, Or.inl rfl, Or.inl rfl⟩
          | some ddP =>
            simp only [hctxP] at hs2
            cases hpw : pinWire ddP (PinRef.outer j p i) with
            | none =>
              simp only [hpw] at hs2
              subst hs2
              exact ⟨Or.inr ⟨_, hmem, hmemAll, rfl⟩, Or.inl rfl, Or.inl rfl⟩
            | some cw =>
              simp only [hpw] at hs2
              subst hs2
              obtain ⟨dP, hresP, hddP⟩ := resolveCtx_elim nl σι.dropLast ddP hctxP
              have hwok : WireNodeOk nl (σι.dropLast ++ [Step.cable cw.1, Step.wire cw.2]) := by
                refine wireNodeOk_build nl σι.dropLast dP ddP (PinRef.outer j p i) cw.1 cw.2
                  (pure_dropLast σι hσ.1) hresP hddP ?_
                have : pinWire ddP (PinRef.outer j p i) = some (cw.1, cw.2) := by
                  rw [hpw]
                exact this
              refine ⟨Or.inr ⟨_, hmem, hmemAll, rfl⟩,
                Or.inr ⟨_, rfl, hwok, Or.inl (by simp)⟩, Or.inl rfl⟩
        | port k =>
          subst hs2
          exact ⟨Or.inr ⟨_, hmem, hmemAll, rfl⟩, Or.inl rfl, Or.inl rfl⟩
        | cable k =>
          subst hs2
          exact ⟨Or.inr ⟨_, hmem, hmemAll, rfl⟩, Or.inl rfl, Or.inl rfl⟩
        | pin k =>
          subst hs2
          exact ⟨Or.inr ⟨_, hmem, hmemAll, rfl⟩, Or.inl rfl, Or.inl rfl⟩
        | wire k =>
          subst hs2
          exact ⟨Or.inr ⟨_, hmem, hmemAll, rfl⟩, Or.inl rfl, Or.inl rfl⟩
  | outer j p i =>
    obtain ⟨ch, ddc, pd, hch, hgd, hp, hi⟩ := valid_outer nl dd j p i hpr
    simp only [processPin] at hs2
    rw [hctx] at hs2
    simp only [hch, hgd] at hs2
    obtain ⟨hok, hresInst⟩ := instPathOk_snoc nl σι j d0 dd ch hσ hres0 hdd0 hch
    by_cases hleaf : isLeafDef ddc = true
    · rw [if_pos hleaf] at hs2
      subst hs2
      have hlf : isLeafNodeB nl (σι ++ [Step.inst j]) = true := by
        simp only [isLeafNodeB, hresInst, hgd, hleaf, Bool.and_eq_true, List.all_eq_true]
        exact ⟨hok.1, trivial⟩
      have hil : instLast (σι ++ [Step.inst j]) = true := by
        simp [instLast, List.getLast?_concat]
      exact ⟨Or.inl rfl, Or.inl rfl, Or.inr ⟨_, rfl, Or.inl ⟨hlf, hil⟩⟩⟩
    · rw [if_neg hleaf] at hs2
      have hmemAll : (σι ++ [Step.inst j]) ++ [Step.port p, Step.pin i] ∈ allPinNodes nl :=
        mem_allPinNodes nl rk hwf (σι ++ [Step.inst j]) ch ddc p i pd hok.1 hresInst hgd hp hi
      have hfnd : (addFound s.found ((σι ++ [Step.inst j]) ++ [Step.port p, Step.pin i]) = s.found ∨
          ∃ q, q ∉ s.found ∧ q ∈ allPinNodes nl ∧
            addFound s.found ((σι ++ [Step.inst j]) ++ [Step.port p, Step.pin i]) = q :: s.found) := by
        unfold addFound
        by_cases hmem : (σι ++ [Step.inst j]) ++ [Step.port p, Step.pin i] ∈ s.found
        · rw [if_pos hmem]
          exact Or.inl rfl
        · rw [if_neg hmem]
          exact Or.inr ⟨_, hmem, hmemAll, rfl⟩
      cases hpw : pinWire ddc (PinRef.inner p i) with
      | none =>
        simp only [hpw] at hs2
        subst hs2
        exact ⟨hfnd, Or.inl rfl, Or.inl rfl⟩
      | some cw =>
        simp only [hpw] at hs2
        subst hs2
        have hwok : WireNodeOk nl ((σι ++ [Step.inst j]) ++ [Step.cable cw.1, Step.wire cw.2]) := by
          refine wireNodeOk_build nl (σι ++ [Step.inst j]) ch ddc (PinRef.inner p i) cw.1 cw.2
            hok.1 hresInst hgd ?_
          rw [← hpw]
          rfl
        refine ⟨hfnd, Or.inr ⟨_, rfl, hwok, Or.inr (by simp)⟩, Or.inl rfl⟩

/-! ## Folding one wire's pins -/

theorem processPins_fold (nl : Netlist) (rk : Nat → Nat) (flag : Bool)
    (hwf : wfB nl rk = true) (σι : HPath) (dd : DefDecl)
    (hσ : InstPathOk nl σι) (hctx : resolveCtx nl σι = some dd) :
    ∀ (prs : List PinRef), (∀ pr ∈ prs, validPinRefB nl dd pr = true) →
    ∀ (s : DSState),
      (∃ pushes, (prs.foldl (processPin nl flag σι) s).stack = pushes ++ s.stack ∧
        (∀ ω2 ∈ pushes, WireNodeOk nl ω2) ∧ pushes.length ≤ prs.length ∧
        ((prs.foldl (processPin nl flag σι) s).found.length = s.found.length →
          ∀ ω2 ∈ pushes, ω2.length = σι.length + 3)) ∧
      (∀ q ∈ (prs.foldl (processPin nl flag σι) s).found, q ∈ s.found ∨ q ∈ allPinNodes nl) ∧
      s.found.length ≤ (prs.foldl (processPin nl flag σι) s).found.length ∧
      (s.found.Nodup → (prs.foldl (processPin nl flag σι) s).found.Nodup) ∧
      (∃ apps, (prs.foldl (processPin nl flag σι) s).downstream = s.downstream ++ apps ∧
        ∀ dn ∈ apps, (isLeafNodeB nl dn = true ∧ instLast dn = true) ∨
          (flag = true ∧ dn ∈ topPortNodes nl)) := by
  intro prs
  induction prs with
  | nil =>
    intro _ s
    exact ⟨⟨[], by simp, by simp, by simp, fun _ => by simp⟩,
      fun q hq => Or.inl hq, le_refl _, fun h => h, ⟨[], by simp, by simp⟩⟩
  | cons pr rest ih =>
    intro hvalid s
    have hvr : validPinRefB nl dd pr = true := hvalid pr (List.mem_cons_self _ _)
    obtain ⟨hfnd, hstk, hds⟩ :=
      processPin_spec nl rk flag hwf σι dd hσ hctx pr hvr s (processPin nl flag σι s pr) rfl
    set s1 := processPin nl flag σι s pr with hs1def
    have hfold : (pr :: rest).foldl (processPin nl flag σι) s =
        rest.foldl (processPin nl flag σι) s1 := by
      simp [List.foldl_cons, hs1def]
    obtain ⟨⟨pushes2, hp2stk, hp2ok, hp2len, hp2down⟩, h2fnd, h2len, h2nodup, apps2, h2ds, h2dsok⟩ :=
      ih (fun q hq => hvalid q (List.mem_cons_of_mem _ hq)) s1
    rw [hfold]
    set s2 := rest.foldl (processPin nl flag σι) s1 with hs2def
    have hlen1 : s.found.length ≤ s1.found.length := by
      rcases hfnd with h | ⟨q, _, _, h⟩ <;> simp [h]
    refine ⟨?_, ?_, ?_, ?_, ?_⟩
    · rcases hstk with h1 | ⟨ω2, h1, hok2, hcond⟩
      · refine ⟨pushes2, by rw [hp2stk, h1], hp2ok, le_trans hp2len (by simp), ?_⟩
        intro heq ω3 hω3
        have heq1 : s2.found.length = s1.found.length := by omega
        exact hp2down heq1 ω3 hω3
      · refine ⟨pushes2 ++ [ω2], by rw [hp2stk, h1]; simp, ?_, by simp; omega, ?_⟩
        · intro ω3 hω3
          rcases List.mem_append.mp hω3 with h | h
          · exact hp2ok ω3 h
          · simp at h
            subst h
            exact hok2
        · intro heq ω3 hω3
          have heq1 : s2.found.length = s1.found.length := by omega
          have heq0 : s1.found.length = s.found.length := by omega
          rcases List.mem_append.mp hω3 with h | h
          · exact hp2down heq1 ω3 h
          · simp at h
            subst h
            rcases hcond with hgrow | hdown
            · omega
            · exact hdown
    · intro q hq
      rcases h2fnd q hq with h | h
      · rcases hfnd with h1 | ⟨q2, _, hq2all, h1⟩
        · rw [h1] at h
          exact Or.inl h
        · rw [h1] at h
          rcases List.mem_cons.mp h with rfl | h
          · exact Or.inr hq2all
          · exact Or.inl h
      · exact Or.inr h
    · omega
    · intro hnd
      apply h2nodup
      rcases hfnd with h1 | ⟨q2, hq2nm, _, h1⟩
      · rw [h1]; exact hnd
      · rw [h1]; exact List.Nodup.cons hq2nm hnd
    · rcases hds with h1 | ⟨dn, h1, hdnok⟩
      · exact ⟨apps2, by rw [h2ds, h1], h2dsok⟩
      · refine ⟨[dn] ++ apps2, by rw [h2ds, h1]; simp, ?_⟩
        intro x hx
        rcases List.mem_append.mp hx with h | h
        · simp at h
          subst h
          exact hdnok
        · exact h2dsok x h

/-! ## Arithmetic for the termination measure -/

theorem sum_map_le (l : List HPath) (f : HPath → Nat) (k : Nat)
    (h : ∀ x ∈ l, f x ≤ k) : (l.map f).sum ≤ l.length * k := by
  induction l with
  | nil => simp
  | cons x xs ih =>
    simp only [List.map_cons, List.sum_cons, List.length_cons]
    have h1 := h x (List.mem_cons_self _ _)
    have h2 := ih fun y hy => h y (List.mem_cons_of_mem _ hy)
    calc f x + (xs.map f).sum ≤ k + xs.length * k := by omega
    _ = (xs.length + 1) * k := by ring

theorem stackW_append (nl : Netlist) (a b : List HPath) :
    stackW nl (a ++ b) = stackW nl a + stackW nl b := by
  simp [stackW]

theorem found_le_dsN (nl : Netlist) (l : List HPath)
    (hnd : l.Nodup) (hsub : ∀ p ∈ l, p ∈ allPinNodes nl) : l.length ≤ dsN nl := by
  have h1 : l.toFinset.card = l.length := List.toFinset_card_of_nodup hnd
  have h2 : l.toFinset ⊆ (allPinNodes nl).toFinset := by
    intro x hx
    rw [List.mem_toFinset] at hx ⊢
    exact hsub x hx
  have h3 : l.toFinset.card ≤ (allPinNodes nl).toFinset.card := Finset.card_le_card h2
  have h4 : (allPinNodes nl).toFinset.card ≤ (allPinNodes nl).length := List.toFinset_card_le _
  unfold dsN
  omega

theorem wWeight_le (nl : Netlist) (ω : HPath) : wWeight nl ω ≤ dsB nl ^ dsE nl := by
  unfold wWeight
  exact Nat.pow_le_pow_right (by unfold dsB; omega) (by omega)

/-! ## One loop iteration: invariant preservation and measure decrease -/

theorem dsStep_good (nl : Netlist) (rk : Nat → Nat) (flag : Bool) (hwf : wfB nl rk = true)
    (ω : HPath) (rest : List HPath) (s : DSState)
    (hstk : s.stack = ω :: rest) (hG : GoodDS nl flag s) :
    GoodDS nl flag (processWire nl flag ω { s with stack := rest }) ∧
    dsMu nl (processWire nl flag ω { s with stack := rest }) < dsMu nl s := by
  have hωok : WireNodeOk nl ω := hG.stackOk ω (by rw [hstk]; exact List.mem_cons_self _ _)
  obtain ⟨σ, c, w, d, dd, cd, hωeq, hpure, hres, hdd, hcd, hwlt, hresω, hctx⟩ :=
    wireNodeOk_elim nl ω hωok
  obtain ⟨wd, hwd⟩ := Option.isSome_iff_exists.mp ((getElem?_isSome_iff cd.wires w).mpr hwlt)
  have hσι : ω.dropLast.dropLast = σ := by rw [hωeq]; exact dropLast_two σ _ _
  have hpw : processWire nl flag ω { s with stack := rest } =
      wd.pins.foldl (processPin nl flag σ) { s with stack := rest } := by
    unfold processWire
    simp only [hresω, hwd, hσι]
  have hvalid : ∀ pr ∈ wd.pins, validPinRefB nl dd pr = true := by
    intro pr hpr
    refine wf_pinRef nl rk hwf dd ?_ cd ?_ wd ?_ pr hpr
    · exact List.getElem?_mem (by simpa [getDef] using hdd)
    · exact List.getElem?_mem hcd
    · exact List.getElem?_mem hwd
  have hσok : InstPathOk nl σ := ⟨hpure, d, hres⟩
  obtain ⟨⟨pushes, hpstk, hpok, hplen, hpdown⟩, hfnd, hflen, hfnodup, apps, hds, hdsok⟩ :=
    processPins_fold nl rk flag hwf σ dd hσok hctx wd.pins hvalid { s with stack := rest }
  set s2 := wd.pins.foldl (processPin nl flag σ) { s with stack := rest } with hs2
  rw [hpw]
  constructor
  · refine ⟨?_, ?_, ?_, ?_⟩
    · intro ω2 hω2
      rw [hpstk] at hω2
      rcases List.mem_append.mp hω2 with h | h
      · exact hpok ω2 h
      · exact hG.stackOk ω2 (by rw [hstk]; exact List.mem_cons_of_mem _ h)
    · intro q hq
      rcases hfnd q hq with h | h
      · exact hG.foundSub q h
      · exact h
    · exact hfnodup hG.foundNodup
    · intro dn hdn
      rw [hds] at hdn
      rcases List.mem_append.mp hdn with h | h
      · exact hG.dsOk dn h
      · exact hdsok dn h
  · have hLσ : σ.length ≤ nl.defs.length + 1 := pureInst_resolve_length nl rk hwf σ hσok
    have hE : dsE nl = nl.defs.length + 6 := rfl
    have hB2 : 2 ≤ dsB nl := by unfold dsB; omega
    have hpins : wd.pins.length + 2 ≤ dsB nl := by
      have := wirePins_le_max nl dd cd wd
        (List.getElem?_mem (by simpa [getDef] using hdd))
        (List.getElem?_mem hcd) (List.getElem?_mem hwd)
      unfold dsB
      omega
    have hωlen : ω.length = σ.length + 2 := by rw [hωeq]; simp
    have hmuS : dsMu nl s = (dsN nl - s.found.length) * dsC nl +
        (wWeight nl ω + stackW nl rest) := by
      unfold dsMu
      rw [hstk]
      simp [stackW]
    have hstk2 : stackW nl s2.stack = stackW nl pushes + stackW nl rest := by
      rw [hpstk, stackW_append]
    have hmuS2 : dsMu nl s2 = (dsN nl - s2.found.length) * dsC nl +
        (stackW nl pushes + stackW nl rest) := by
      unfold dsMu
      rw [hstk2]
    by_cases hgrow : s2.found.length = s.found.length
    · have hdownall : ∀ ω2 ∈ pushes, ω2.length = σ.length + 3 := hpdown (by simpa using hgrow)
      have hwts : ∀ ω2 ∈ pushes, wWeight nl ω2 ≤ dsB nl ^ (dsE nl - σ.length - 3) := by
        intro ω2 hω2
        rw [wWeight, hdownall ω2 hω2]
        exact Nat.pow_le_pow_right (by omega) (by omega)
      have hsum : stackW nl pushes ≤ pushes.length * dsB nl ^ (dsE nl - σ.length - 3) :=
        sum_map_le pushes (wWeight nl) _ hwts
      have hlt : stackW nl pushes < wWeight nl ω := by
        have h1 : pushes.length * dsB nl ^ (dsE nl - σ.length - 3) ≤
            (dsB nl - 2) * dsB nl ^ (dsE nl - σ.length - 3) := by
          apply Nat.mul_le_mul_right
          omega
        have h2 : (dsB nl - 2) * dsB nl ^ (dsE nl - σ.length - 3) <
            dsB nl * dsB nl ^ (dsE nl - σ.length - 3) := by
          have hpos : 0 < dsB nl ^ (dsE nl - σ.length - 3) :=
            Nat.pos_pow_of_pos _ (by omega)
          exact (Nat.mul_lt_mul_right hpos).mpr (by omega)
        have h3 : dsB nl * dsB nl ^ (dsE nl - σ.length - 3) =
            dsB nl ^ (dsE nl - σ.length - 2) := by
          rw [← pow_succ']
          congr 1
          try omega
        have h4 : wWeight nl ω = dsB nl ^ (dsE nl - σ.length - 2) := by
          rw [wWeight, hωlen]
          congr 1
        omega
      rw [hmuS, hmuS2, hgrow]
      omega
    · have hflen2 : s.found.length < s2.found.length := by
        have : s.found.length ≤ s2.found.length := by simpa using hflen
        omega
      have hfN : s2.found.length ≤ dsN nl := by
        apply found_le_dsN nl s2.found (hfnodup hG.foundNodup)
        intro q hq
        rcases hfnd q hq with h | h
        · exact hG.foundSub q h
        · exact h
      have hsum : stackW nl pushes ≤ pushes.length * dsB nl ^ dsE nl :=
        sum_map_le pushes (wWeight nl) _ (fun ω2 _ => wWeight_le nl ω2)
      have hsb : stackW nl pushes + 2 ≤ dsC nl := by
        have h1 : pushes.length * dsB nl ^ dsE nl ≤ (dsB nl - 2) * dsB nl ^ dsE nl := by
          apply Nat.mul_le_mul_right
          omega
        have h2 : (dsB nl - 2) * dsB nl ^ dsE nl < dsB nl * dsB nl ^ dsE nl := by
          have hpos : 0 < dsB nl ^ dsE nl := Nat.pos_pow_of_pos _ (by omega)
          exact (Nat.mul_lt_mul_right hpos).mpr (by omega)
        have h3 : dsB nl * dsB nl ^ dsE nl = dsB nl ^ (dsE nl + 1) := by
          rw [← pow_succ']
        have h4 : dsC nl = dsB nl ^ (dsE nl + 1) + 1 := rfl
        omega
      obtain ⟨k, hk⟩ : ∃ k, dsN nl - s.found.length = k + 1 :=
        ⟨dsN nl - s.found.length - 1, by omega⟩
      have hk2 : dsN nl - s2.found.length ≤ k := by omega
      have hmul : (dsN nl - s2.found.length) * dsC nl ≤ k * dsC nl :=
        Nat.mul_le_mul_right _ hk2
      have hwpos : 1 ≤ wWeight nl ω := Nat.pos_pow_of_pos _ (by unfold dsB; omega)
      rw [hmuS, hmuS2, hk]
      have hexp : (k + 1) * dsC nl = k * dsC nl + dsC nl := by ring
      rw [hexp]
      omega


/-! ## The loop terminates with the invariant intact -/

theorem dsRun_succ (nl : Netlist) (flag : Bool) (n : Nat) (s : DSState) :
    dsRun nl flag (n + 1) s =
      match s.stack with
      | [] => s
      | ω :: rest => dsRun nl flag n (processWire nl flag ω { s with stack := rest }) := rfl

theorem dsRun_good (nl : Netlist) (rk : Nat → Nat) (flag : Bool) (hwf : wfB nl rk = true) :
    ∀ (fuel : Nat) (s : DSState), GoodDS nl flag s → dsMu nl s < fuel →
      GoodDS nl flag (dsRun nl flag fuel s) ∧ (dsRun nl flag fuel s).stack = [] := by
  intro fuel
  induction fuel with
  | zero => intro s _ h; omega
  | succ n ih =>
    intro s hG hμ
    cases hstk : s.stack with
    | nil =>
      have : dsRun nl flag (n + 1) s = s := by
        rw [dsRun_succ, hstk]
      rw [this]
      exact ⟨hG, hstk⟩
    | cons ω rest =>
      have hstep := dsStep_good nl rk flag hwf ω rest s hstk hG
      have : dsRun nl flag (n + 1) s =
          dsRun nl flag n (processWire nl flag ω { s with stack := rest }) := by
        rw [dsRun_succ, hstk]
      rw [this]
      exact ih _ hstep.1 (by omega)

theorem addFound_nodup (f : List HPath) (p : HPath) (h : f.Nodup) : (addFound f p).Nodup := by
  unfold addFound
  by_cases hm : p ∈ f
  · rw [if_pos hm]; exact h
  · rw [if_neg hm]; exact List.Nodup.cons hm h

theorem addFound_sub (f : List HPath) (p : HPath) :
    ∀ q ∈ addFound f p, q ∈ f ∨ q = p := by
  intro q hq
  unfold addFound at hq
  by_cases hm : p ∈ f
  · rw [if_pos hm] at hq; exact Or.inl hq
  · rw [if_neg hm] at hq
    rcases List.mem_cons.mp hq with rfl | h
    · exact Or.inr rfl
    · exact Or.inl h

theorem defPinPairs_mem (dd : DefDecl) (p i : Nat) (h : (p, i) ∈ defPinPairs dd) :
    ∃ pd, dd.ports[p]? = some pd ∧ i < pd.numPins := by
  unfold defPinPairs at h
  simp only [List.mem_flatMap, List.mem_map] at h
  obtain ⟨pe, hpe, k, hk, heq⟩ := h
  obtain ⟨h1, h2⟩ := Prod.mk.injEq _ _ _ _ ▸ heq
  simp at heq
  obtain ⟨rfl, rfl⟩ := heq
  exact ⟨pe.2, List.mk_mem_enum_iff_getElem?.mp (by
    obtain ⟨a, b⟩ := pe
    exact hpe), List.mem_range.mp hk⟩


/-! ## Seed states are well-formed -/

theorem seedFold_good (nl : Netlist) {α : Type} (f : α → Option (HPath × HPath)) :
    ∀ (l : List α),
      (∀ a ∈ l, ∀ fw, f a = some fw → fw.1 ∈ allPinNodes nl ∧ WireNodeOk nl fw.2) →
      ∀ s0 : DSState,
        (∀ ω ∈ (l.foldl (fun s a => recordSeed s (f a)) s0).stack,
          ω ∈ s0.stack ∨ WireNodeOk nl ω) ∧
        (∀ q ∈ (l.foldl (fun s a => recordSeed s (f a)) s0).found,
          q ∈ s0.found ∨ q ∈ allPinNodes nl) ∧
        (s0.found.Nodup → (l.foldl (fun s a => recordSeed s (f a)) s0).found.Nodup) ∧
        (l.foldl (fun s a => recordSeed s (f a)) s0).downstream = s0.downstream := by
  intro l
  induction l with
  | nil => exact fun _ s0 => ⟨fun ω h => Or.inl h, fun q h => Or.inl h, fun h => h, rfl⟩
  | cons a rest ih =>
    intro hok s0
    have hfold : (a :: rest).foldl (fun s a => recordSeed s (f a)) s0 =
        rest.foldl (fun s a => recordSeed s (f a)) (recordSeed s0 (f a)) := by
      simp
    rw [hfold]
    obtain ⟨ihs, ihf, ihn, ihd⟩ :=
      ih (fun b hb => hok b (List.mem_cons_of_mem _ hb)) (recordSeed s0 (f a))
    cases hfa : f a with
    | none =>
      rw [hfa] at ihs ihf ihn ihd
      exact ⟨ihs, ihf, ihn, ihd⟩
    | some fw =>
      rw [hfa] at ihs ihf ihn ihd
      obtain ⟨hfw1, hfw2⟩ := hok a (List.mem_cons_self _ _) fw hfa
      refine ⟨?_, ?_, ?_, ihd⟩
      · intro ω hω
        rcases ihs ω hω with h | h
        · simp only [recordSeed] at h
          rcases List.mem_cons.mp h with rfl | h2
          · exact Or.inr hfw2
          · exact Or.inl h2
        · exact Or.inr h
      · intro q hq
        rcases ihf q hq with h | h
        · simp only [recordSeed] at h
          rcases addFound_sub _ _ q h with h2 | rfl
          · exact Or.inl h2
          · exact Or.inr hfw1
        · exact Or.inr h
      · intro hnd
        apply ihn
        exact addFound_nodup _ _ hnd

theorem seedInstPin_ok (nl : Netlist) (rk : Nat → Nat) (hwf : wfB nl rk = true)
    (π : HPath) (d : InstDecl) (dd : DefDecl) (pd : PortDecl)
    (hres : resolve nl π = some (Item.inst d)) (hdd : getDef nl d.ref = some dd)
    (pi : Nat × Nat) (hpd : dd.ports[pi.1]? = some pd) (hrange : pi.2 < pd.numPins)
    (fw : HPath × HPath) (hfw : seedInstPin nl π d pi = some fw) :
    fw.1 ∈ allPinNodes nl ∧ WireNodeOk nl fw.2 := by
  have hpure : ∀ s ∈ π, isInstStep s = true := pureInst_of_resolveFrom_inst nl nl.top d π hres
  unfold seedInstPin at hfw
  simp only [hdd, hpd] at hfw
  by_cases hdir : dirOutish pd.direction = true
  · rw [if_pos hdir] at hfw
    cases hlast : π.getLast? with
    | none => rw [hlast] at hfw; simp at hfw
    | some st =>
      rw [hlast] at hfw
      cases st with
      | inst j =>
        cases hctxP : resolveCtx nl π.dropLast with
        | none => simp [hctxP] at hfw
        | some ddP =>
          simp only [hctxP] at hfw
          cases hpwr : pinWire ddP (PinRef.outer j pi.1 pi.2) with
          | none => simp [hpwr] at hfw
          | some cw =>
            simp only [hpwr, Option.some_inj] at hfw
            obtain ⟨dP, hresP, hddP⟩ := resolveCtx_elim nl π.dropLast ddP hctxP
            subst hfw
            constructor
            · exact mem_allPinNodes nl rk hwf π d dd pi.1 pi.2 pd hpure hres hdd hpd hrange
            · exact wireNodeOk_build nl π.dropLast dP ddP (PinRef.outer j pi.1 pi.2) cw.1 cw.2
                (pure_dropLast π hpure) hresP hddP (by rw [← hpwr]; rfl)
      | port k => simp at hfw
      | cable k => simp at hfw
      | pin k => simp at hfw
      | wire k => simp at hfw
  · rw [if_neg hdir] at hfw
    simp at hfw

theorem seedPortPin_ok (nl : Netlist) (rk : Nat → Nat) (hwf : wfB nl rk = true)
    (π : HPath) (pd : PortDecl) (i : Nat)
    (hres : resolve nl π = some (Item.port pd)) (hrange : i < pd.numPins)
    (fw : HPath × HPath) (hfw : seedPortPin nl π i = some fw) :
    fw.1 ∈ allPinNodes nl ∧ WireNodeOk nl fw.2 := by
  unfold seedPortPin at hfw
  cases hlast : π.getLast? with
  | none => rw [hlast] at hfw; simp at hfw
  | some st =>
    rw [hlast] at hfw
    cases st with
    | port p =>
      cases hctxP : resolveCtx nl π.dropLast with
      | none => simp [hctxP] at hfw
      | some ddP =>
        simp only [hctxP] at hfw
        cases hpwr : pinWire ddP (PinRef.inner p i) with
        | none => simp [hpwr] at hfw
        | some cw =>
          simp only [hpwr, Option.some_inj] at hfw
          obtain ⟨dP, hresP, hddP⟩ := resolveCtx_elim nl π.dropLast ddP hctxP
          have hπsplit : π.dropLast ++ [Step.port p] = π :=
            List.dropLast_append_getLast? _ hlast
          have hports : ddP.ports[p]? = some pd := by
            have hres2 : resolve nl (π.dropLast ++ [Step.port p]) = some (Item.port pd) := by
              rw [hπsplit]; exact hres
            rw [resolve_snoc, hresP] at hres2
            simp only [Option.some_bind, stepItem, hddP] at hres2
            cases hpq : ddP.ports[p]? with
            | none => rw [hpq] at hres2; simp at hres2
            | some pd2 =>
              rw [hpq] at hres2
              simp at hres2
              rw [hres2]
          have hpure : ∀ s ∈ π.dropLast, isInstStep s = true :=
            pureInst_of_resolveFrom_inst nl nl.top dP π.dropLast hresP
          subst hfw
          constructor
          · have hmem := mem_allPinNodes nl rk hwf π.dropLast dP ddP p i pd
              hpure hresP hddP hports hrange
            have : π ++ [Step.pin i] = π.dropLast ++ [Step.port p, Step.pin i] := by
              rw [← hπsplit]
              simp
            rw [this]
            exact hmem
          · exact wireNodeOk_build nl π.dropLast dP ddP (PinRef.inner p i) cw.1 cw.2
              hpure hresP hddP (by rw [← hpwr]; rfl)
    | cable k => simp at hfw
    | inst k => simp at hfw
    | pin k => simp at hfw
    | wire k => simp at hfw

theorem seedInst_good (nl : Netlist) (rk : Nat → Nat) (flag : Bool) (hwf : wfB nl rk = true)
    (π : HPath) (d : InstDecl) (hres : resolve nl π = some (Item.inst d)) :
    GoodDS nl flag (seedInst nl π d) ∧ (seedInst nl π d).downstream = [] := by
  unfold seedInst
  cases hdd : getDef nl d.ref with
  | none =>
    simp only [hdd]
    exact ⟨⟨by simp, by simp, by simp, by simp⟩, rfl⟩
  | some dd =>
    simp only [hdd]
    have hok : ∀ pi ∈ defPinPairs dd, ∀ fw, seedInstPin nl π d pi = some fw →
        fw.1 ∈ allPinNodes nl ∧ WireNodeOk nl fw.2 := by
      intro pi hpi fw hfw
      obtain ⟨pd, hpd, hrange⟩ := defPinPairs_mem dd pi.1 pi.2 (by
        have : pi = (pi.1, pi.2) := rfl
        rw [← this]
        exact hpi)
      exact seedInstPin_ok nl rk hwf π d dd pd hres hdd pi hpd hrange fw hfw
    obtain ⟨hs, hf, hn, hd2⟩ :=
      seedFold_good nl (seedInstPin nl π d) (defPinPairs dd) hok ⟨[], [], []⟩
    refine ⟨⟨?_, ?_, ?_, ?_⟩, hd2⟩
    · intro ω hω
      rcases hs ω hω with h | h
      · simp at h
      · exact h
    · intro q hq
      rcases hf q hq with h | h
      · simp at h
      · exact h
    · exact hn (by simp)
    · intro dn hdn
      rw [hd2] at hdn
      simp at hdn

theorem seedPort_good (nl : Netlist) (rk : Nat → Nat) (flag : Bool) (hwf : wfB nl rk = true)
    (π : HPath) (pd : PortDecl) (hres : resolve nl π = some (Item.port pd)) :
    GoodDS nl flag (seedPort nl π pd) ∧ (seedPort nl π pd).downstream = [] := by
  unfold seedPort
  by_cases hdir : dirInish pd.direction = true
  · rw [if_pos hdir]
    have hok : ∀ i ∈ List.range pd.numPins, ∀ fw, seedPortPin nl π i = some fw →
        fw.1 ∈ allPinNodes nl ∧ WireNodeOk nl fw.2 := by
      intro i hi fw hfw
      exact seedPortPin_ok nl rk hwf π pd i hres (List.mem_range.mp hi) fw hfw
    obtain ⟨hs, hf, hn, hd2⟩ :=
      seedFold_good nl (seedPortPin nl π) (List.range pd.numPins) hok ⟨[], [], []⟩
    refine ⟨⟨?_, ?_, ?_, ?_⟩, hd2⟩
    · intro ω hω
      rcases hs ω hω with h | h
      · simp at h
      · exact h
    · intro q hq
      rcases hf q hq with h | h
      · simp at h
      · exact h
    · exact hn (by simp)
    · intro dn hdn
      rw [hd2] at hdn
      simp at hdn
  · rw [if_neg hdir]
    exact ⟨⟨by simp, by simp, by simp, by simp⟩, rfl⟩

theorem dsInit_good (nl : Netlist) (rk : Nat → Nat) (flag : Bool) (hwf : wfB nl rk = true)
    (π : HPath) :
    GoodDS nl flag (dsInit nl flag π) ∧ (dsInit nl flag π).downstream = [] := by
  unfold dsInit
  cases hres : resolve nl π with
  | none => exact ⟨⟨by simp, by simp, by simp, by simp⟩, rfl⟩
  | some it =>
    cases it with
    | inst d => exact seedInst_good nl rk flag hwf π d hres
    | port pd =>
      cases flag with
      | true =>
        simp only [if_pos]
        exact seedPort_good nl rk true hwf π pd hres
      | false => exact ⟨⟨by simp, by simp, by simp, by simp⟩, rfl⟩
    | pin p i => exact ⟨⟨by simp, by simp, by simp, by simp⟩, rfl⟩
    | cable c => exact ⟨⟨by simp, by simp, by simp, by simp⟩, rfl⟩
    | wire c i => exact ⟨⟨by simp, by simp, by simp, by simp⟩, rfl⟩

theorem dsFinal_good (nl : Netlist) (rk : Nat → Nat) (flag : Bool) (hwf : wfB nl rk = true)
    (π : HPath) :
    GoodDS nl flag (dsFinal nl flag π) ∧ (dsFinal nl flag π).stack = [] := by
  obtain ⟨hG, _⟩ := dsInit_good nl rk flag hwf π
  exact dsRun_good nl rk flag hwf (dsMu nl (dsInit nl flag π) + 1) (dsInit nl flag π)
    hG (by omega)

theorem getDownstream_sel (nl : Netlist) (rk : Nat → Nat) (flag : Bool)
    (hwf : wfB nl rk = true) (π : HPath) :
    ∀ dn ∈ getDownstreamNodes nl flag π,
      (isLeafNodeB nl dn = true ∧ instLast dn = true) ∨
        (flag = true ∧ dn ∈ topPortNodes nl) := by
  intro dn hdn
  exact (dsFinal_good nl rk flag hwf π).1.dsOk dn hdn

/-! ## Collector: soundness, completeness, termination -/

theorem collRun_acc_mono (nl : Netlist) :
    ∀ (fuel : Nat) (acc stack : List HPath) (τ : HPath), τ ∈ acc →
      τ ∈ collRun nl fuel acc stack := by
  intro fuel
  induction fuel with
  | zero => intro acc stack τ h; exact h
  | succ n ih =>
    intro acc stack τ h
    cases stack with
    | nil => exact h
    | cons π rest =>
      show τ ∈ collRun nl (n + 1) acc (π :: rest)
      unfold collRun
      cases hres : resolve nl π with
      | none => exact ih acc rest τ h
      | some it =>
        cases it with
        | inst d =>
          simp only []
          cases hdd : getDef nl d.ref with
          | none => exact ih acc rest τ h
          | some dd =>
            simp only []
            by_cases hleaf : isLeafDef dd = true
            · rw [if_pos hleaf]
              exact ih (acc ++ [π]) rest τ (by simp [h])
            · rw [if_neg hleaf]
              exact ih acc _ τ h
        | port p => exact ih acc rest τ h
        | pin p i => exact ih acc rest τ h
        | cable c => exact ih acc rest τ h
        | wire c i => exact ih acc rest τ h

theorem collRun_sound (nl : Netlist) :
    ∀ (fuel : Nat) (acc stack : List HPath),
      (∀ π ∈ acc, isLeafNodeB nl π = true) →
      (∀ π ∈ stack, (resolve nl π).isSome = true) →
      ∀ τ ∈ collRun nl fuel acc stack, isLeafNodeB nl τ = true := by
  intro fuel
  induction fuel with
  | zero => intro acc stack hacc _ τ h; exact hacc τ h
  | succ n ih =>
    intro acc stack hacc hstack τ hτ
    cases stack with
    | nil => exact hacc τ hτ
    | cons π rest =>
      unfold collRun at hτ
      have hrest : ∀ ρ ∈ rest, (resolve nl ρ).isSome = true :=
        fun ρ hρ => hstack ρ (List.mem_cons_of_mem _ hρ)
      cases hres : resolve nl π with
      | none =>
        rw [hres] at hτ
        exact ih acc rest hacc hrest τ hτ
      | some it =>
        rw [hres] at hτ
        cases it with
        | inst d =>
          simp only [] at hτ
          cases hdd : getDef nl d.ref with
          | none =>
            rw [hdd] at hτ
            exact ih acc rest hacc hrest τ hτ
          | some dd =>
            rw [hdd] at hτ
            simp only [] at hτ
            by_cases hleaf : isLeafDef dd = true
            · rw [if_pos hleaf] at hτ
              refine ih (acc ++ [π]) rest ?_ hrest τ hτ
              intro ρ hρ
              rcases List.mem_append.mp hρ with h | h
              · exact hacc ρ h
              · simp at h
                subst h
                have hpure := pureInst_of_resolveFrom_inst nl nl.top d ρ hres
                simp only [isLeafNodeB, hres, hdd, hleaf, Bool.and_eq_true, List.all_eq_true]
                exact ⟨hpure, trivial⟩
            · rw [if_neg hleaf] at hτ
              refine ih acc _ hacc ?_ τ hτ
              intro ρ hρ
              rcases List.mem_append.mp hρ with h | h
              · simp only [List.mem_map] at h
                obtain ⟨st, hst, rfl⟩ := h
                rw [resolve_snoc, hres]
                simp only [Option.some_bind]
                exact (mem_childSteps_iff nl (Item.inst d) st).mp hst
              · exact hrest ρ h
        | port p =>
          simp only [] at hτ
          exact ih acc rest hacc hrest τ hτ
        | pin p i =>
          simp only [] at hτ
          exact ih acc rest hacc hrest τ hτ
        | cable c =>
          simp only [] at hτ
          exact ih acc rest hacc hrest τ hτ
        | wire c i =>
          simp only [] at hτ
          exact ih acc rest hacc hrest τ hτ

theorem isLeafNodeB_elim (nl : Netlist) (τ : HPath) (h : isLeafNodeB nl τ = true) :
    (∀ s ∈ τ, isInstStep s = true) ∧
    ∃ d dd, resolve nl τ = some (Item.inst d) ∧ getDef nl d.ref = some dd ∧
      isLeafDef dd = true := by
  unfold isLeafNodeB at h
  rw [Bool.and_eq_true] at h
  obtain ⟨h1, h2⟩ := h
  refine ⟨fun s hs => List.all_eq_true.mp h1 s hs, ?_⟩
  cases hres : resolve nl τ with
  | none => rw [hres] at h2; simp at h2
  | some it =>
    rw [hres] at h2
    cases it with
    | inst d =>
      simp only [] at h2
      cases hdd : getDef nl d.ref with
      | none => rw [hdd] at h2; simp at h2
      | some dd =>
        rw [hdd] at h2
        exact ⟨d, dd, rfl, hdd, h2⟩
    | port p => simp at h2
    | pin p i => simp at h2
    | cable c => simp at h2
    | wire c i => simp at h2

theorem isLeafNodeB_intro (nl : Netlist) (τ : HPath) (d : InstDecl) (dd : DefDecl)
    (hres : resolve nl τ = some (Item.inst d)) (hdd : getDef nl d.ref = some dd)
    (hleaf : isLeafDef dd = true) : isLeafNodeB nl τ = true := by
  have hpure := pureInst_of_resolveFrom_inst nl nl.top d τ hres
  simp only [isLeafNodeB, hres, hdd, hleaf, Bool.and_eq_true, List.all_eq_true]
  exact ⟨hpure, trivial⟩

theorem childSteps_le_maxFanout (nl : Netlist) (d : InstDecl) (dd : DefDecl)
    (hdd : getDef nl d.ref = some dd) :
    (childSteps nl (Item.inst d)).length ≤ maxFanout nl := by
  have hmem : dd.ports.length + dd.cables.length + dd.children.length ≤ maxFanout nl :=
    le_foldr_max _ _ (List.mem_map_of_mem _ (List.getElem?_mem (by simpa [getDef] using hdd)))
  simp only [childSteps, hdd, List.length_append, List.length_map, List.length_range]
  omega

theorem collWeight_pos (nl : Netlist) (π : HPath) : 1 ≤ collWeight nl π :=
  Nat.pos_pow_of_pos _ (by unfold collB; omega)

theorem collMu_cons (nl : Netlist) (π : HPath) (rest : List HPath) :
    collMu nl (π :: rest) = collWeight nl π + collMu nl rest := by
  simp [collMu]

theorem collMu_append (nl : Netlist) (a b : List HPath) :
    collMu nl (a ++ b) = collMu nl a + collMu nl b := by
  simp [collMu]

theorem collMu_expand (nl : Netlist) (rk : Nat → Nat) (hwf : wfB nl rk = true)
    (π : HPath) (rest : List HPath) (d : InstDecl) (dd : DefDecl)
    (hres : resolve nl π = some (Item.inst d)) (hdd : getDef nl d.ref = some dd) :
    collMu nl ((childSteps nl (Item.inst d)).map (fun s => π ++ [s]) ++ rest) <
      collMu nl (π :: rest) := by
  have hlen : π.length ≤ nl.defs.length + 3 :=
    resolve_length_le nl rk hwf π (by rw [hres]; rfl)
  have hE : collE nl = nl.defs.length + 6 := rfl
  have hB : 2 ≤ collB nl := by unfold collB; omega
  have hfan : (childSteps nl (Item.inst d)).length + 2 ≤ collB nl := by
    have := childSteps_le_maxFanout nl d dd hdd
    unfold collB
    omega
  rw [collMu_append, collMu_cons]
  have hwts : ∀ x ∈ (childSteps nl (Item.inst d)).map (fun s => π ++ [s]),
      collWeight nl x ≤ collB nl ^ (collE nl - π.length - 1) := by
    intro x hx
    simp only [List.mem_map] at hx
    obtain ⟨st, _, rfl⟩ := hx
    unfold collWeight
    apply Nat.pow_le_pow_right (by omega)
    simp
    omega
  have hsum : collMu nl ((childSteps nl (Item.inst d)).map (fun s => π ++ [s])) ≤
      ((childSteps nl (Item.inst d)).map (fun s => π ++ [s])).length *
        collB nl ^ (collE nl - π.length - 1) :=
    sum_map_le _ _ _ hwts
  have hcount : ((childSteps nl (Item.inst d)).map (fun s => π ++ [s])).length =
      (childSteps nl (Item.inst d)).length := by simp
  have h2 : (collB nl - 2) * collB nl ^ (collE nl - π.length - 1) <
      collB nl * collB nl ^ (collE nl - π.length - 1) := by
    have hpos : 0 < collB nl ^ (collE nl - π.length - 1) :=
      Nat.pos_pow_of_pos _ (by omega)
    exact (Nat.mul_lt_mul_right hpos).mpr (by omega)
  have h3 : collB nl * collB nl ^ (collE nl - π.length - 1) =
      collB nl ^ (collE nl - π.length) := by
    rw [← pow_succ']
    congr 1
    omega
  have h4 : collWeight nl π = collB nl ^ (collE nl - π.length) := rfl
  have h1 : ((childSteps nl (Item.inst d)).map (fun s => π ++ [s])).length *
      collB nl ^ (collE nl - π.length - 1) ≤
      (collB nl - 2) * collB nl ^ (collE nl - π.length - 1) := by
    apply Nat.mul_le_mul_right
    omega
  omega

theorem isInstStep_elim (s : Step) (h : isInstStep s = true) : ∃ j, s = Step.inst j := by
  cases s with
  | inst j => exact ⟨j, rfl⟩
  | port i => simp [isInstStep] at h
  | cable i => simp [isInstStep] at h
  | pin i => simp [isInstStep] at h
  | wire i => simp [isInstStep] at h

theorem notLeaf_of_child (dd : DefDecl) (j : Nat) (ch : InstDecl)
    (h : dd.children[j]? = some ch) : isLeafDef dd = false := by
  unfold isLeafDef
  cases hc : dd.children with
  | nil => rw [hc] at h; simp at h
  | cons a l => simp

theorem collRun_complete (nl : Netlist) (rk : Nat → Nat) (hwf : wfB nl rk = true) :
    ∀ (fuel : Nat) (acc stack : List HPath),
      collMu nl stack < fuel →
      (∀ π ∈ stack, (resolve nl π).isSome = true) →
      ∀ τ, isLeafNodeB nl τ = true → (∃ π ∈ stack, π <+: τ) →
      τ ∈ collRun nl fuel acc stack := by
  intro fuel
  induction fuel with
  | zero => intro acc stack hμ _ τ _ _; omega
  | succ n ih =>
    intro acc stack hμ hval τ hτ hwit
    cases stack with
    | nil => simp at hwit
    | cons π0 rest =>
      obtain ⟨hpureτ, dτ, ddτ, hresτ, hddτ, hleafτ⟩ := isLeafNodeB_elim nl τ hτ
      have hrestval : ∀ ρ ∈ rest, (resolve nl ρ).isSome = true :=
        fun ρ hρ => hval ρ (List.mem_cons_of_mem _ hρ)
      have hμrest : collMu nl rest < n := by
        have h1 := collMu_cons nl π0 rest
        have h2 := collWeight_pos nl π0
        omega
      by_cases hpre : π0 <+: τ
      · obtain ⟨ρ, hρ⟩ := hpre
        have hpure0 : ∀ s ∈ π0, isInstStep s = true := by
          intro s hs
          exact hpureτ s (by rw [← hρ]; exact List.mem_append_left _ hs)
        obtain ⟨it0, hit0⟩ := Option.isSome_iff_exists.mp (hval π0 (List.mem_cons_self _ _))
        obtain ⟨d0, rfl⟩ := resolveFrom_pureInst_isInst nl π0 nl.top it0 hpure0 hit0
        cases ρ with
        | nil =>
          have hτeq : τ = π0 := by rw [← hρ]; simp
          subst hτeq
          show τ ∈ collRun nl (n + 1) acc (τ :: rest)
          unfold collRun
          rw [hresτ]
          simp only []
          rw [hddτ]
          simp only []
          rw [if_pos hleafτ]
          exact collRun_acc_mono nl n _ rest τ (by simp)
        | cons s ρ2 =>
          have hsτ : s ∈ τ := by rw [← hρ]; exact List.mem_append_right _ (List.mem_cons_self _ _)
          obtain ⟨j, rfl⟩ := isInstStep_elim s (hpureτ s hsτ)
          have hresτ2 : resolveFrom nl (Item.inst d0) (Step.inst j :: ρ2) =
              some (Item.inst dτ) := by
            have := resolve_append nl π0 (Step.inst j :: ρ2)
            rw [hρ, hresτ, hit0] at this
            simpa using this.symm
          rw [resolveFrom_cons] at hresτ2
          simp only [stepItem] at hresτ2
          cases hdd0 : getDef nl d0.ref with
          | none => rw [hdd0] at hresτ2; simp at hresτ2
          | some dd0 =>
            rw [hdd0] at hresτ2
            simp only [Option.some_bind] at hresτ2
            cases hch : dd0.children[j]? with
            | none => rw [hch] at hresτ2; simp at hresτ2
            | some ch =>
              rw [hch] at hresτ2
              simp only [Option.map_some', Option.some_bind] at hresτ2
              have hnleaf : isLeafDef dd0 = false := notLeaf_of_child dd0 j ch hch
              show τ ∈ collRun nl (n + 1) acc (π0 :: rest)
              unfold collRun
              rw [hit0]
              simp only []
              rw [hdd0]
              simp only []
              rw [if_neg (by rw [hnleaf]; simp)]
              refine ih acc _ ?_ ?_ τ hτ ?_
              · have := collMu_expand nl rk hwf π0 rest d0 dd0 hit0 hdd0
                omega
              · intro x hx
                rcases List.mem_append.mp hx with h | h
                · simp only [List.mem_map] at h
                  obtain ⟨st, hst, rfl⟩ := h
                  rw [resolve_snoc, hit0]
                  simp only [Option.some_bind]
                  exact (mem_childSteps_iff nl (Item.inst d0) st).mp hst
                · exact hrestval x h
              · refine ⟨π0 ++ [Step.inst j], List.mem_append_left _ ?_, ⟨ρ2, by rw [← hρ]; simp⟩⟩
                simp only [List.mem_map]
                refine ⟨Step.inst j, ?_, rfl⟩
                rw [mem_childSteps_iff]
                simp [stepItem, hdd0, hch]
      · obtain ⟨π1, hπ1mem, hπ1pre⟩ := hwit
        have hπ1rest : π1 ∈ rest := by
          rcases List.mem_cons.mp hπ1mem with rfl | h
          · exact absurd hπ1pre hpre
          · exact h
        show τ ∈ collRun nl (n + 1) acc (π0 :: rest)
        unfold collRun
        cases hres0 : resolve nl π0 with
        | none => exact ih acc rest hμrest hrestval τ hτ ⟨π1, hπ1rest, hπ1pre⟩
        | some it =>
          cases it with
          | inst d =>
            simp only []
            cases hdd0 : getDef nl d.ref with
            | none => exact ih acc rest hμrest hrestval τ hτ ⟨π1, hπ1rest, hπ1pre⟩
            | some dd0 =>
              simp only []
              by_cases hleaf : isLeafDef dd0 = true
              · rw [if_pos hleaf]
                exact ih (acc ++ [π0]) rest hμrest hrestval τ hτ ⟨π1, hπ1rest, hπ1pre⟩
              · rw [if_neg hleaf]
                refine ih acc _ ?_ ?_ τ hτ ⟨π1, List.mem_append_right _ hπ1rest, hπ1pre⟩
                · have := collMu_expand nl rk hwf π0 rest d dd0 hres0 hdd0
                  omega
                · intro x hx
                  rcases List.mem_append.mp hx with h | h
                  · simp only [List.mem_map] at h
                    obtain ⟨st, hst, rfl⟩ := h
                    rw [resolve_snoc, hres0]
                    simp only [Option.some_bind]
                    exact (mem_childSteps_iff nl (Item.inst d) st).mp hst
                  · exact hrestval x h
          | port p => exact ih acc rest hμrest hrestval τ hτ ⟨π1, hπ1rest, hπ1pre⟩
          | pin p i => exact ih acc rest hμrest hrestval τ hτ ⟨π1, hπ1rest, hπ1pre⟩
          | cable c => exact ih acc rest hμrest hrestval τ hτ ⟨π1, hπ1rest, hπ1pre⟩
          | wire c i => exact ih acc rest hμrest hrestval τ hτ ⟨π1, hπ1rest, hπ1pre⟩

theorem mem_leafInstanceNodes_iff (nl : Netlist) (rk : Nat → Nat) (hwf : wfB nl rk = true)
    (τ : HPath) : τ ∈ leafInstanceNodes nl ↔ isLeafNodeB nl τ = true := by
  constructor
  · intro h
    exact collRun_sound nl _ [] [[]] (by simp) (by simp [resolve, resolveFrom]) τ h
  · intro h
    exact collRun_complete nl rk hwf _ [] [[]] (by omega)
      (by simp [resolve, resolveFrom]) τ h ⟨[], by simp, by simp⟩

/-! ## The flag only adds top-port results: a step-by-step simulation -/

theorem instLast_concat_inst (σ : HPath) (j : Nat) :
    instLast (σ ++ [Step.inst j]) = true := by
  simp [instLast, List.getLast?_concat]

theorem instLast_concat_port (σ : HPath) (p : Nat) :
    instLast (σ ++ [Step.port p]) = false := by
  simp [instLast, List.getLast?_concat]

theorem processPin_flag (nl : Netlist) (σι : HPath) (pr : PinRef) (s t : DSState)
    (hstk : t.stack = s.stack) (hfnd : t.found = s.found)
    (hds : t.downstream = s.downstream.filter (fun π => instLast π)) :
    (processPin nl false σι t pr).stack = (processPin nl true σι s pr).stack ∧
    (processPin nl false σι t pr).found = (processPin nl true σι s pr).found ∧
    (processPin nl false σι t pr).downstream =
      (processPin nl true σι s pr).downstream.filter (fun π => instLast π) := by
  cases pr with
  | inner p i =>
    simp only [processPin]
    rw [hfnd]
    by_cases hm : σι ++ [Step.port p, Step.pin i] ∈ s.found
    · rw [if_pos hm, if_pos hm]
      exact ⟨hstk, hfnd, hds⟩
    · rw [if_neg hm, if_neg hm]
      cases hlast : σι.getLast? with
      | none =>
        simp only []
        rw [if_pos trivial, if_neg (by simp)]
        refine ⟨hstk, rfl, ?_⟩
        show t.downstream = List.filter (fun π => instLast π)
          (s.downstream ++ [σι ++ [Step.port p]])
        rw [List.filter_append, hds]
        have hil : instLast (σι ++ [Step.port p]) = false := instLast_concat_port σι p
        simp [hil]
      | some st =>
        cases st with
        | inst j =>
          cases hctxP : resolveCtx nl σι.dropLast with
          | none => exact ⟨hstk, rfl, hds⟩
          | some ddP =>
            simp only []
            cases hpw : pinWire ddP (PinRef.outer j p i) with
            | none => exact ⟨hstk, rfl, hds⟩
            | some cw => exact ⟨by simp [hstk], rfl, hds⟩
        | port k => exact ⟨hstk, rfl, hds⟩
        | cable k => exact ⟨hstk, rfl, hds⟩
        | pin k => exact ⟨hstk, rfl, hds⟩
        | wire k => exact ⟨hstk, rfl, hds⟩
  | outer j p i =>
    simp only [processPin]
    cases hctx : resolveCtx nl σι with
    | none => exact ⟨hstk, hfnd, hds⟩
    | some dd =>
      simp only []
      cases hch : dd.children[j]? with
      | none => exact ⟨hstk, hfnd, hds⟩
      | some ch =>
        simp only []
        cases hgd : getDef nl ch.ref with
        | none => exact ⟨hstk, hfnd, hds⟩
        | some ddc =>
          simp only []
          by_cases hleaf : isLeafDef ddc = true
          · rw [if_pos hleaf, if_pos hleaf]
            refine ⟨hstk, hfnd, ?_⟩
            show t.downstream ++ [σι ++ [Step.inst j]] = List.filter (fun π => instLast π)
              (s.downstream ++ [σι ++ [Step.inst j]])
            rw [List.filter_append, hds]
            have hil : instLast (σι ++ [Step.inst j]) = true := instLast_concat_inst σι j
            simp [hil]
          · rw [if_neg hleaf, if_neg hleaf]
            rw [hfnd]
            cases hpw : pinWire ddc (PinRef.inner p i) with
            | none => exact ⟨hstk, rfl, hds⟩
            | some cw => exact ⟨by simp [hstk], rfl, hds⟩

theorem processWire_flag (nl : Netlist) (ω : HPath) (s t : DSState)
    (hstk : t.stack = s.stack) (hfnd : t.found = s.found)
    (hds : t.downstream = s.downstream.filter (fun π => instLast π)) :
    (processWire nl false ω t).stack = (processWire nl true ω s).stack ∧
    (processWire nl false ω t).found = (processWire nl true ω s).found ∧
    (processWire nl false ω t).downstream =
      (processWire nl true ω s).downstream.filter (fun π => instLast π) := by
  unfold processWire
  cases hres : resolve nl ω with
  | none => exact ⟨hstk, hfnd, hds⟩
  | some it =>
    cases it with
    | wire cd wi =>
      simp only []
      cases hwd : cd.wires[wi]? with
      | none => exact ⟨hstk, hfnd, hds⟩
      | some wd =>
        simp only []
        induction wd.pins generalizing s t with
        | nil => exact ⟨hstk, hfnd, hds⟩
        | cons pr rest ih =>
          simp only [List.foldl_cons]
          obtain ⟨h1, h2, h3⟩ := processPin_flag nl ω.dropLast.dropLast pr s t hstk hfnd hds
          exact ih _ _ h1 h2 h3
    | inst d => exact ⟨hstk, hfnd, hds⟩
    | port p => exact ⟨hstk, hfnd, hds⟩
    | pin p i => exact ⟨hstk, hfnd, hds⟩
    | cable c => exact ⟨hstk, hfnd, hds⟩

theorem dsRun_flag (nl : Netlist) :
    ∀ (fuel : Nat) (s t : DSState),
      t.stack = s.stack → t.found = s.found →
      t.downstream = s.downstream.filter (fun π => instLast π) →
      (dsRun nl false fuel t).stack = (dsRun nl true fuel s).stack ∧
      (dsRun nl false fuel t).found = (dsRun nl true fuel s).found ∧
      (dsRun nl false fuel t).downstream =
        (dsRun nl true fuel s).downstream.filter (fun π => instLast π) := by
  intro fuel
  induction fuel with
  | zero => exact fun s t h1 h2 h3 => ⟨h1, h2, h3⟩
  | succ n ih =>
    intro s t h1 h2 h3
    rw [dsRun_succ, dsRun_succ, h1]
    cases hstk : s.stack with
    | nil => exact ⟨h1, h2, h3⟩
    | cons ω rest =>
      obtain ⟨g1, g2, g3⟩ := processWire_flag nl ω
        { s with stack := rest } { t with stack := rest } (by simp) (by simp [h2]) (by simp [h3])
      exact ih _ _ g1 g2 g3

theorem recordSeed_down (s : DSState) (o : Option (HPath × HPath)) :
    (recordSeed s o).downstream = s.downstream := by
  cases o with
  | none => rfl
  | some fw => rfl

theorem seedFold_down {α : Type} (f : α → Option (HPath × HPath)) :
    ∀ (l : List α) (s0 : DSState),
      (l.foldl (fun s a => recordSeed s (f a)) s0).downstream = s0.downstream := by
  intro l
  induction l with
  | nil => exact fun s0 => rfl
  | cons a rest ih =>
    intro s0
    simp only [List.foldl_cons]
    rw [ih]
    exact recordSeed_down s0 (f a)

theorem seedInst_down (nl : Netlist) (π : HPath) (d : InstDecl) :
    (seedInst nl π d).downstream = [] := by
  unfold seedInst
  cases hdd : getDef nl d.ref with
  | none => simp [hdd, seedFold_down]
  | some dd => simp [hdd, seedFold_down]

theorem getDownstream_flag (nl : Netlist) (π : HPath) (d : InstDecl)
    (hres : resolve nl π = some (Item.inst d)) :
    getDownstreamNodes nl false π =
      (getDownstreamNodes nl true π).filter (fun ρ => instLast ρ) := by
  have hinit : dsInit nl true π = seedInst nl π d := by
    unfold dsInit
    rw [hres]
  have hinitF : dsInit nl false π = seedInst nl π d := by
    unfold dsInit
    rw [hres]
  unfold getDownstreamNodes dsFinal
  rw [hinit, hinitF]
  have hdown := seedInst_down nl π d
  obtain ⟨_, _, h3⟩ := dsRun_flag nl (dsMu nl (seedInst nl π d) + 1)
    (seedInst nl π d) (seedInst nl π d) rfl rfl (by rw [hdown]; rfl)
  exact h3

/-! ## Characterizing the assembled graph -/

theorem addNodes_nodes (l : List HPath) :
    ∀ (g : DiGraph) (x : HPath), x ∈ (addNodes g l).nodes ↔ x ∈ g.nodes ∨ x ∈ l := by
  induction l with
  | nil => intro g x; simp [addNodes]
  | cons a rest ih =>
    intro g x
    have hstep : addNodes g (a :: rest) = addNodes ⟨insert a g.nodes, g.edges⟩ rest := by
      simp [addNodes]
    rw [hstep, ih]
    simp only [Finset.mem_insert, List.mem_cons]
    tauto

theorem addNodes_edges (g : DiGraph) (l : List HPath) :
    (addNodes g l).edges = g.edges := rfl

theorem edgeFold_edges (π : HPath) :
    ∀ (l : List HPath) (g : DiGraph) (e : HPath × HPath),
      e ∈ (l.foldl (fun g2 dn => addEdge g2 π dn) g).edges ↔
        e ∈ g.edges ∨ ∃ dn ∈ l, e = (π, dn) := by
  intro l
  induction l with
  | nil => intro g e; simp
  | cons a rest ih =>
    intro g e
    simp only [List.foldl_cons]
    rw [ih]
    simp only [addEdge, Finset.mem_insert, List.mem_cons]
    aesop

theorem edgeFold_nodes (π : HPath) :
    ∀ (l : List HPath) (g : DiGraph) (x : HPath),
      x ∈ (l.foldl (fun g2 dn => addEdge g2 π dn) g).nodes ↔
        x ∈ g.nodes ∨ x ∈ l ∨ (x = π ∧ l ≠ []) := by
  intro l
  induction l with
  | nil => intro g x; simp
  | cons a rest ih =>
    intro g x
    simp only [List.foldl_cons]
    rw [ih]
    simp only [addEdge, Finset.mem_insert, List.mem_cons]
    aesop

theorem graphFold_edges (nl : Netlist) (flag : Bool) :
    ∀ (bl : List HPath) (g : DiGraph) (e : HPath × HPath),
      e ∈ (bl.foldl (fun g π =>
        (getDownstreamNodes nl flag π).foldl (fun g2 dn => addEdge g2 π dn) g) g).edges ↔
        e ∈ g.edges ∨ ∃ π ∈ bl, ∃ dn ∈ getDownstreamNodes nl flag π, e = (π, dn) := by
  intro bl
  induction bl with
  | nil => intro g e; simp
  | cons π0 rest ih =>
    intro g e
    simp only [List.foldl_cons]
    rw [ih]
    rw [edgeFold_edges]
    simp only [List.mem_cons]
    aesop

theorem graphFold_nodes (nl : Netlist) (flag : Bool) :
    ∀ (bl : List HPath) (g : DiGraph) (x : HPath),
      x ∈ (bl.foldl (fun g π =>
        (getDownstreamNodes nl flag π).foldl (fun g2 dn => addEdge g2 π dn) g) g).nodes ↔
        x ∈ g.nodes ∨ ∃ π ∈ bl,
          (x ∈ getDownstreamNodes nl flag π ∨
            (x = π ∧ getDownstreamNodes nl flag π ≠ [])) := by
  intro bl
  induction bl with
  | nil => intro g x; simp
  | cons π0 rest ih =>
    intro g x
    simp only [List.foldl_cons]
    rw [ih]
    rw [edgeFold_nodes]
    simp only [List.mem_cons]
    aesop

theorem mem_graph_edges (nl : Netlist) (flag : Bool) (e : HPath × HPath) :
    e ∈ (getConnectivityGraph nl flag).edges ↔
      ∃ π ∈ baseNodes nl flag, ∃ dn ∈ getDownstreamNodes nl flag π, e = (π, dn) := by
  unfold getConnectivityGraph
  rw [graphFold_edges]
  simp [addNodes_edges]

theorem mem_graph_nodes (nl : Netlist) (flag : Bool) (x : HPath) :
    x ∈ (getConnectivityGraph nl flag).nodes ↔
      x ∈ baseNodes nl flag ∨ ∃ π ∈ baseNodes nl flag, x ∈ getDownstreamNodes nl flag π := by
  unfold getConnectivityGraph
  rw [graphFold_nodes]
  rw [addNodes_nodes]
  simp only [Finset.not_mem_empty, false_or]
  aesop

/-! ## Base node set; ports and leaves are disjoint -/

theorem baseNodes_false (nl : Netlist) : baseNodes nl false = leafInstanceNodes nl := by
  simp [baseNodes]

theorem baseNodes_true (nl : Netlist) :
    baseNodes nl true = leafInstanceNodes nl ++ topPortNodes nl := by
  simp [baseNodes]

theorem mem_base_elim (nl : Netlist) (flag : Bool) (π : HPath) (h : π ∈ baseNodes nl flag) :
    π ∈ leafInstanceNodes nl ∨ (flag = true ∧ π ∈ topPortNodes nl) := by
  unfold baseNodes at h
  rcases List.mem_append.mp h with h1 | h1
  · exact Or.inl h1
  · cases flag with
    | true => exact Or.inr ⟨rfl, by simpa using h1⟩
    | false => simp at h1

theorem topPort_not_instLast (nl : Netlist) (ρ : HPath) (h : ρ ∈ topPortNodes nl) :
    instLast ρ = false := by
  obtain ⟨p, dd, rfl, _, _⟩ := (mem_topPortNodes_iff nl ρ).mp h
  simp [instLast]

theorem leaf_not_topPort (nl : Netlist) (π : HPath) (h : isLeafNodeB nl π = true) :
    π ∉ topPortNodes nl := by
  intro hmem
  obtain ⟨p, dd, rfl, _, _⟩ := (mem_topPortNodes_iff nl _).mp hmem
  obtain ⟨hpure, _⟩ := isLeafNodeB_elim nl _ h
  have := hpure (Step.port p) (by simp)
  simp [isInstStep] at this

theorem downstream_in_base (nl : Netlist) (rk : Nat → Nat) (flag : Bool)
    (hwf : wfB nl rk = true) (π : HPath) :
    ∀ dn ∈ getDownstreamNodes nl flag π, dn ∈ baseNodes nl flag := by
  intro dn hdn
  rcases getDownstream_sel nl rk flag hwf π dn hdn with ⟨hleaf, _⟩ | ⟨hflag, hport⟩
  · exact List.mem_append_left _ ((mem_leafInstanceNodes_iff nl rk hwf dn).mpr hleaf)
  · subst hflag
    exact List.mem_append_right _ (by simpa using hport)

theorem graph_nodes_base (nl : Netlist) (rk : Nat → Nat) (flag : Bool)
    (hwf : wfB nl rk = true) (x : HPath) :
    x ∈ (getConnectivityGraph nl flag).nodes ↔ x ∈ baseNodes nl flag := by
  rw [mem_graph_nodes]
  constructor
  · rintro (h | ⟨π, hπ, h⟩)
    · exact h
    · exact downstream_in_base nl rk flag hwf π x h
  · exact Or.inl

/-! ## The flag-false graph is the flag-true graph without top ports -/

theorem diGraph_eq (g h : DiGraph) (hn : g.nodes = h.nodes) (he : g.edges = h.edges) :
    g = h := by
  cases g
  cases h
  simp only at hn he
  rw [hn, he]

theorem graph_remove_topPorts (nl : Netlist) (rk : Nat → Nat) (hwf : wfB nl rk = true) :
    getConnectivityGraph nl false =
      removeNodesFrom (getConnectivityGraph nl true) (topPortNodes nl).toFinset := by
  apply diGraph_eq
  · apply Finset.ext
    intro x
    rw [show (removeNodesFrom (getConnectivityGraph nl true)
        (topPortNodes nl).toFinset).nodes =
      (getConnectivityGraph nl true).nodes \ (topPortNodes nl).toFinset from rfl]
    rw [Finset.mem_sdiff, graph_nodes_base nl rk false hwf, graph_nodes_base nl rk true hwf,
      baseNodes_false, baseNodes_true, List.mem_toFinset]
    constructor
    · intro h
      have hlf : isLeafNodeB nl x = true := (mem_leafInstanceNodes_iff nl rk hwf x).mp h
      exact ⟨List.mem_append_left _ h, leaf_not_topPort nl x hlf⟩
    · rintro ⟨h1, h2⟩
      rcases List.mem_append.mp h1 with h | h
      · exact h
      · exact absurd h h2
  · apply Finset.ext
    intro e
    rw [show (removeNodesFrom (getConnectivityGraph nl true)
        (topPortNodes nl).toFinset).edges =
      (getConnectivityGraph nl true).edges.filter
        (fun e => e.1 ∉ (topPortNodes nl).toFinset ∧ e.2 ∉ (topPortNodes nl).toFinset)
      from rfl]
    rw [Finset.mem_filter, mem_graph_edges, mem_graph_edges]
    constructor
    · rintro ⟨π, hπ, dn, hdn, rfl⟩
      rw [baseNodes_false] at hπ
      have hlf : isLeafNodeB nl π = true := (mem_leafInstanceNodes_iff nl rk hwf π).mp hπ
      obtain ⟨_, dπ, _, hresπ, _, _⟩ := isLeafNodeB_elim nl π hlf
      have hfilter := getDownstream_flag nl π dπ hresπ
      rw [hfilter] at hdn
      rw [List.mem_filter] at hdn
      obtain ⟨hdnT, hdnInst⟩ := hdn
      refine ⟨⟨π, by rw [baseNodes_true]; exact List.mem_append_left _ hπ, dn, hdnT, rfl⟩,
        ?_, ?_⟩
      · rw [List.mem_toFinset]
        exact leaf_not_topPort nl π hlf
      · rw [List.mem_toFinset]
        intro hmem
        have := topPort_not_instLast nl dn hmem
        rw [this] at hdnInst
        simp at hdnInst
    · rintro ⟨⟨π, hπ, dn, hdn, rfl⟩, h1, h2⟩
      rw [List.mem_toFinset] at h1 h2
      have hπleaf : π ∈ leafInstanceNodes nl := by
        rcases mem_base_elim nl true π hπ with h | ⟨_, h⟩
        · exact h
        · exact absurd h h1
      have hlf : isLeafNodeB nl π = true := (mem_leafInstanceNodes_iff nl rk hwf π).mp hπleaf
      obtain ⟨_, dπ, _, hresπ, _, _⟩ := isLeafNodeB_elim nl π hlf
      have hdnInst : instLast dn = true := by
        rcases getDownstream_sel nl rk true hwf π dn hdn with ⟨_, h⟩ | ⟨_, h⟩
        · exact h
        · exact absurd h h2
      refine ⟨π, by rw [baseNodes_false]; exact hπleaf, dn, ?_, rfl⟩
      rw [getDownstream_flag nl π dπ hresπ, List.mem_filter]
      exact ⟨hdn, hdnInst⟩

/-! ## The seed stack matches the spec's description -/

theorem filterMap_congrOn {α β : Type} (l : List α) (f g : α → Option β)
    (h : ∀ a ∈ l, f a = g a) : l.filterMap f = l.filterMap g := by
  induction l with
  | nil => rfl
  | cons a rest ih =>
    rw [List.filterMap_cons, List.filterMap_cons, h a (List.mem_cons_self _ _),
      ih fun b hb => h b (List.mem_cons_of_mem _ hb)]

theorem seedFold_stack {α : Type} (f : α → Option (HPath × HPath)) :
    ∀ (l : List α) (s0 : DSState),
      (l.foldl (fun s a => recordSeed s (f a)) s0).stack =
        (l.filterMap (fun a => (f a).map Prod.snd)).reverse ++ s0.stack := by
  intro l
  induction l with
  | nil => intro s0; simp
  | cons a rest ih =>
    intro s0
    simp only [List.foldl_cons, List.filterMap_cons]
    cases hfa : f a with
    | none =>
      simp only [Option.map_none']
      exact ih s0
    | some fw =>
      simp only [Option.map_some']
      rw [show recordSeed s0 (some fw) =
        { s0 with found := addFound s0.found fw.1, stack := fw.2 :: s0.stack } from rfl]
      rw [ih { s0 with found := addFound s0.found fw.1, stack := fw.2 :: s0.stack }]
      simp

theorem seedInst_stack (nl : Netlist) (π : HPath) (d : InstDecl) :
    (seedInst nl π d).stack = (seedWiresSpecInst nl π d).reverse := by
  unfold seedInst seedWiresSpecInst
  cases hdd : getDef nl d.ref with
  | none => simp [hdd]
  | some dd =>
    simp only [hdd]
    rw [seedFold_stack]
    simp only [List.append_nil]
    congr 1
    apply filterMap_congrOn
    intro pi _
    unfold seedInstPin
    simp only [hdd]
    cases hp : dd.ports[pi.1]? with
    | none => simp
    | some pd =>
      simp only []
      by_cases hdir : dirOutish pd.direction = true
      · rw [if_pos hdir, if_pos hdir]
        cases hlast : π.getLast? with
        | none => simp
        | some st =>
          cases st with
          | inst j =>
            cases hctxP : resolveCtx nl π.dropLast with
            | none => simp
            | some ddP =>
              simp only []
              cases hpw : pinWire ddP (PinRef.outer j pi.1 pi.2) with
              | none => simp
              | some cw => simp
          | port k => simp
          | cable k => simp
          | pin k => simp
          | wire k => simp
      · rw [if_neg hdir, if_neg hdir]
        simp

theorem seedPort_down (nl : Netlist) (π : HPath) (pd : PortDecl) :
    (seedPort nl π pd).downstream = [] := by
  unfold seedPort
  by_cases hdir : dirInish pd.direction = true
  · rw [if_pos hdir]
    exact seedFold_down _ _ _
  · rw [if_neg hdir]

theorem seedPort_stack (nl : Netlist) (π : HPath) (pd : PortDecl) :
    (seedPort nl π pd).stack = (seedWiresSpecPort nl π pd).reverse := by
  unfold seedPort seedWiresSpecPort
  by_cases hdir : dirInish pd.direction = true
  · rw [if_pos hdir, if_pos hdir]
    rw [seedFold_stack]
    simp only [List.append_nil]
    congr 1
    apply filterMap_congrOn
    intro i _
    unfold seedPortPin
    cases hlast : π.getLast? with
    | none => simp
    | some st =>
      cases st with
      | port p =>
        cases hctxP : resolveCtx nl π.dropLast with
        | none => simp
        | some ddP =>
          simp only []
          cases hpw : pinWire ddP (PinRef.inner p i) with
          | none => simp
          | some cw => simp
      | inst k => simp
      | cable k => simp
      | pin k => simp
      | wire k => simp
  · rw [if_neg hdir, if_neg hdir]
    simp

theorem dsInit_down (nl : Netlist) (flag : Bool) (π : HPath) :
    (dsInit nl flag π).downstream = [] := by
  unfold dsInit
  cases hres : resolve nl π with
  | none => rfl
  | some it =>
    cases it with
    | inst d => exact seedInst_down nl π d
    | port pd =>
      cases flag with
      | true =>
        simp only [if_pos]
        exact seedPort_down nl π pd
      | false => rfl
    | pin p i => rfl
    | cable c => rfl
    | wire c i => rfl

theorem dsRun_nilStack (nl : Netlist) (flag : Bool) (fuel : Nat) (s : DSState)
    (h : s.stack = []) : dsRun nl flag fuel s = s := by
  cases fuel with
  | zero => rfl
  | succ n =>
    rw [dsRun_succ, h]

theorem noSeeds_empty (nl : Netlist) (flag : Bool) (π : HPath)
    (h : (dsInit nl flag π).stack = []) : getDownstreamNodes nl flag π = [] := by
  unfold getDownstreamNodes dsFinal
  rw [dsRun_nilStack nl flag _ _ h]
  exact dsInit_down nl flag π

/-! ## Graph topology does not depend on attributes -/

theorem strip_getDef (nl : Netlist) (i : Nat) :
    getDef (stripAttrs nl) i = (getDef nl i).map stripDef := by
  simp [getDef, stripAttrs, List.getElem?_map]

theorem stripDef_ports (d : DefDecl) : (stripDef d).ports = d.ports.map stripPort := rfl

theorem stripDef_cables (d : DefDecl) : (stripDef d).cables = d.cables.map stripCable := rfl

theorem stripDef_children (d : DefDecl) : (stripDef d).children = d.children.map stripInst := rfl

theorem stripCable_wires (c : CableDecl) : (stripCable c).wires = c.wires := rfl

theorem stripInst_ref (d : InstDecl) : (stripInst d).ref = d.ref := rfl

theorem strip_stepItem (nl : Netlist) (it : Item) (s : Step) :
    stepItem (stripAttrs nl) (stripItem it) s = (stepItem nl it s).map stripItem := by
  cases it with
  | inst d =>
    cases s with
    | port i =>
      simp only [stepItem, stripItem, strip_getDef, stripInst_ref]
      cases hd : getDef nl d.ref with
      | none => simp
      | some dd =>
        simp only [Option.map_some', Option.some_bind, stripDef_ports, List.getElem?_map]
        cases hp : dd.ports[i]? <;> simp [stripItem]
    | cable i =>
      simp only [stepItem, stripItem, strip_getDef, stripInst_ref]
      cases hd : getDef nl d.ref with
      | none => simp
      | some dd =>
        simp only [Option.map_some', Option.some_bind, stripDef_cables, List.getElem?_map]
        cases hp : dd.cables[i]? <;> simp [stripItem]
    | inst i =>
      simp only [stepItem, stripItem, strip_getDef, stripInst_ref]
      cases hd : getDef nl d.ref with
      | none => simp
      | some dd =>
        simp only [Option.map_some', Option.some_bind, stripDef_children, List.getElem?_map]
        cases hp : dd.children[i]? <;> simp [stripItem]
    | pin i => simp [stepItem, stripItem]
    | wire i => simp [stepItem, stripItem]
  | port p =>
    cases s with
    | pin i =>
      simp only [stepItem, stripItem]
      by_cases hlt : i < p.numPins
      · rw [if_pos hlt, if_pos (show i < (stripPort p).numPins from hlt)]
        rfl
      · rw [if_neg hlt, if_neg (show ¬i < (stripPort p).numPins from hlt)]
        rfl
    | port i => simp [stepItem, stripItem]
    | cable i => simp [stepItem, stripItem]
    | inst i => simp [stepItem, stripItem]
    | wire i => simp [stepItem, stripItem]
  | pin p i => cases s <;> simp [stepItem, stripItem]
  | cable c =>
    cases s with
    | wire i =>
      simp only [stepItem, stripItem]
      by_cases hlt : i < c.wires.length
      · rw [if_pos hlt, if_pos (show i < (stripCable c).wires.length from hlt)]
        rfl
      · rw [if_neg hlt, if_neg (show ¬i < (stripCable c).wires.length from hlt)]
        rfl
    | port i => simp [stepItem, stripItem]
    | cable i => simp [stepItem, stripItem]
    | inst i => simp [stepItem, stripItem]
    | pin i => simp [stepItem, stripItem]
  | wire c i => cases s <;> simp [stepItem, stripItem]

theorem strip_resolveFrom (nl : Netlist) :
    ∀ (π : HPath) (it : Item),
      resolveFrom (stripAttrs nl) (stripItem it) π = (resolveFrom nl it π).map stripItem := by
  intro π
  induction π with
  | nil => intro it; simp [resolveFrom]
  | cons s rest ih =>
    intro it
    rw [resolveFrom_cons, resolveFrom_cons, strip_stepItem]
    cases hst : stepItem nl it s with
    | none => simp
    | some it2 =>
      simp only [Option.map_some', Option.some_bind]
      exact ih it2

theorem strip_resolve (nl : Netlist) (π : HPath) :
    resolve (stripAttrs nl) π = (resolve nl π).map stripItem := by
  unfold resolve
  rw [show (Item.inst (stripAttrs nl).top) = stripItem (Item.inst nl.top) from rfl]
  exact strip_resolveFrom nl π (Item.inst nl.top)

theorem strip_childSteps (nl : Netlist) (it : Item) :
    childSteps (stripAttrs nl) (stripItem it) = childSteps nl it := by
  cases it with
  | inst d =>
    simp only [childSteps, stripItem, strip_getDef, stripInst_ref]
    cases hd : getDef nl d.ref with
    | none => simp
    | some dd => simp [stripDef_ports, stripDef_cables, stripDef_children]
  | port p => rfl
  | pin p i => rfl
  | cable c => rfl
  | wire c i => rfl

theorem strip_findWireIdx (pr : PinRef) :
    ∀ (cs : List CableDecl), findWireIdx pr (cs.map stripCable) = findWireIdx pr cs := by
  intro cs
  induction cs with
  | nil => rfl
  | cons c rest ih =>
    simp only [List.map_cons, findWireIdx, stripCable_wires]
    rw [ih]

theorem strip_pinWire (dd : DefDecl) (pr : PinRef) :
    pinWire (stripDef dd) pr = pinWire dd pr := by
  unfold pinWire
  rw [stripDef_cables]
  exact strip_findWireIdx pr dd.cables

theorem strip_resolveCtx (nl : Netlist) (σ : HPath) :
    resolveCtx (stripAttrs nl) σ = (resolveCtx nl σ).map stripDef := by
  unfold resolveCtx
  rw [strip_resolve]
  cases hres : resolve nl σ with
  | none => simp
  | some it =>
    cases it with
    | inst d => simp [strip_getDef, stripItem, stripInst_ref]
    | port p => simp [stripItem]
    | pin p i => simp [stripItem]
    | cable c => simp [stripItem]
    | wire c i => simp [stripItem]

theorem strip_isLeafDef (dd : DefDecl) : isLeafDef (stripDef dd) = isLeafDef dd := by
  simp only [isLeafDef, stripDef_children]
  cases dd.children <;> simp [List.isEmpty]

theorem strip_processPin (nl : Netlist) (flag : Bool) (σι : HPath) (s : DSState) (pr : PinRef) :
    processPin (stripAttrs nl) flag σι s pr = processPin nl flag σι s pr := by
  cases pr with
  | inner p i =>
    simp only [processPin]
    by_cases hm : σι ++ [Step.port p, Step.pin i] ∈ s.found
    · rw [if_pos hm, if_pos hm]
    · rw [if_neg hm, if_neg hm]
      cases hlast : σι.getLast? with
      | none => rfl
      | some st =>
        cases st with
        | inst j =>
          rw [strip_resolveCtx]
          cases hctxP : resolveCtx nl σι.dropLast with
          | none => rfl
          | some ddP =>
            simp only [Option.map_some']
            rw [strip_pinWire]
        | port k => rfl
        | cable k => rfl
        | pin k => rfl
        | wire k => rfl
  | outer j p i =>
    simp only [processPin]
    rw [strip_resolveCtx]
    cases hctx : resolveCtx nl σι with
    | none => rfl
    | some dd =>
      simp only [Option.map_some', stripDef_children, List.getElem?_map]
      cases hch : dd.children[j]? with
      | none => rfl
      | some ch =>
        simp only [Option.map_some']
        rw [show (stripInst ch).ref = ch.ref from rfl, strip_getDef]
        cases hgd : getDef nl ch.ref with
        | none => rfl
        | some ddc =>
          simp only [Option.map_some']
          rw [strip_isLeafDef]
          by_cases hleaf : isLeafDef ddc = true
          · rw [if_pos hleaf, if_pos hleaf]
          · rw [if_neg hleaf, if_neg hleaf]
            rw [strip_pinWire]

theorem strip_processWire (nl : Netlist) (flag : Bool) (ω : HPath) (s : DSState) :
    processWire (stripAttrs nl) flag ω s = processWire nl flag ω s := by
  unfold processWire
  rw [strip_resolve]
  cases hres : resolve nl ω with
  | none => rfl
  | some it =>
    cases it with
    | wire cd wi =>
      simp only [Option.map_some', stripItem, stripCable_wires]
      cases hwd : cd.wires[wi]? with
      | none => rfl
      | some wd =>
        simp only []
        induction wd.pins generalizing s with
        | nil => rfl
        | cons pr rest ih =>
          simp only [List.foldl_cons]
          rw [strip_processPin]
          exact ih _
    | inst d => rfl
    | port p => rfl
    | pin p i => rfl
    | cable c => rfl

theorem strip_dsRun (nl : Netlist) (flag : Bool) :
    ∀ (fuel : Nat) (s : DSState), dsRun (stripAttrs nl) flag fuel s = dsRun nl flag fuel s := by
  intro fuel
  induction fuel with
  | zero => intro s; rfl
  | succ n ih =>
    intro s
    rw [dsRun_succ, dsRun_succ]
    cases hstk : s.stack with
    | nil => rfl
    | cons ω rest =>
      simp only []
      rw [strip_processWire]
      exact ih _

theorem stripPort_numPins (p : PortDecl) : (stripPort p).numPins = p.numPins := rfl

theorem strip_defPinPairs (dd : DefDecl) : defPinPairs (stripDef dd) = defPinPairs dd := by
  unfold defPinPairs
  rw [stripDef_ports, List.enum_map]
  rw [List.flatMap_map]
  rfl

theorem strip_seedInstPin (nl : Netlist) (π : HPath) (d : InstDecl) (pi : Nat × Nat) :
    seedInstPin (stripAttrs nl) π (stripInst d) pi = seedInstPin nl π d pi := by
  unfold seedInstPin
  rw [stripInst_ref, strip_getDef]
  cases hd : getDef nl d.ref with
  | none => rfl
  | some dd =>
    simp only [Option.map_some', stripDef_ports, List.getElem?_map]
    cases hp : dd.ports[pi.1]? with
    | none => rfl
    | some pd =>
      simp only [Option.map_some']
      rw [show dirOutish (stripPort pd).direction = dirOutish pd.direction from rfl]
      by_cases hdir : dirOutish pd.direction = true
      · rw [if_pos hdir, if_pos hdir]
        cases hlast : π.getLast? with
        | none => rfl
        | some st =>
          cases st with
          | inst j =>
            rw [strip_resolveCtx]
            cases hctxP : resolveCtx nl π.dropLast with
            | none => rfl
            | some ddP =>
              simp only [Option.map_some']
              rw [strip_pinWire]
          | port k => rfl
          | cable k => rfl
          | pin k => rfl
          | wire k => rfl
      · rw [if_neg hdir, if_neg hdir]
  
theorem strip_seedInst (nl : Netlist) (π : HPath) (d : InstDecl) :
    seedInst (stripAttrs nl) π (stripInst d) = seedInst nl π d := by
  unfold seedInst
  rw [stripInst_ref, strip_getDef]
  cases hd : getDef nl d.ref with
  | none => rfl
  | some dd =>
    simp only [Option.map_some', strip_defPinPairs]
    have : ∀ (l : List (Nat × Nat)) (s0 : DSState),
        l.foldl (fun s pi => recordSeed s (seedInstPin (stripAttrs nl) π (stripInst d) pi)) s0 =
        l.foldl (fun s pi => recordSeed s (seedInstPin nl π d pi)) s0 := by
      intro l
      induction l with
      | nil => intro s0; rfl
      | cons a rest ih =>
        intro s0
        simp only [List.foldl_cons]
        rw [strip_seedInstPin]
        exact ih _
    exact this (defPinPairs dd) ⟨[], [], []⟩

theorem strip_seedPortPin (nl : Netlist) (π : HPath) (i : Nat) :
    seedPortPin (stripAttrs nl) π i = seedPortPin nl π i := by
  unfold seedPortPin
  cases hlast : π.getLast? with
  | none => rfl
  | some st =>
    cases st with
    | port p =>
      rw [strip_resolveCtx]
      cases hctxP : resolveCtx nl π.dropLast with
      | none => rfl
      | some ddP =>
        simp only [Option.map_some']
        rw [strip_pinWire]
    | inst k => rfl
    | cable k => rfl
    | pin k => rfl
    | wire k => rfl

theorem strip_seedPort (nl : Netlist) (π : HPath) (pd : PortDecl) :
    seedPort (stripAttrs nl) π (stripPort pd) = seedPort nl π pd := by
  unfold seedPort
  rw [show dirInish (stripPort pd).direction = dirInish pd.direction from rfl,
    stripPort_numPins]
  by_cases hdir : dirInish pd.direction = true
  · rw [if_pos hdir, if_pos hdir]
    have : ∀ (l : List Nat) (s0 : DSState),
        l.foldl (fun s i => recordSeed s (seedPortPin (stripAttrs nl) π i)) s0 =
        l.foldl (fun s i => recordSeed s (seedPortPin nl π i)) s0 := by
      intro l
      induction l with
      | nil => intro s0; rfl
      | cons a rest ih =>
        intro s0
        simp only [List.foldl_cons]
        rw [strip_seedPortPin]
        exact ih _
    exact this (List.range pd.numPins) ⟨[], [], []⟩
  · rw [if_neg hdir, if_neg hdir]

theorem strip_dsInit (nl : Netlist) (flag : Bool) (π : HPath) :
    dsInit (stripAttrs nl) flag π = dsInit nl flag π := by
  unfold dsInit
  rw [strip_resolve]
  cases hres : resolve nl π with
  | none => rfl
  | some it =>
    cases it with
    | inst d =>
      simp only [Option.map_some', stripItem]
      exact strip_seedInst nl π d
    | port pd =>
      simp only [Option.map_some', stripItem]
      cases flag with
      | true =>
        simp only [if_pos]
        exact strip_seedPort nl π pd
      | false => rfl
    | pin p i => rfl
    | cable c => rfl
    | wire c i => rfl

theorem strip_maxWirePins (nl : Netlist) : maxWirePins (stripAttrs nl) = maxWirePins nl := by
  unfold maxWirePins stripAttrs
  simp only [List.map_map]
  congr 1
  apply List.map_congr_left
  intro d _
  simp only [Function.comp_apply, stripDef_cables, List.map_map]
  congr 1

theorem strip_pinNodesFrom (nl : Netlist) :
    ∀ (fuel : Nat) (d : InstDecl) (σ : HPath),
      pinNodesFrom (stripAttrs nl) fuel (stripInst d) σ = pinNodesFrom nl fuel d σ := by
  intro fuel
  induction fuel with
  | zero => intro d σ; rfl
  | succ n ih =>
    intro d σ
    unfold pinNodesFrom
    rw [stripInst_ref, strip_getDef]
    cases hd : getDef nl d.ref with
    | none => rfl
    | some dd =>
      simp only [Option.map_some', stripDef_ports, stripDef_children]
      congr 1
      · rw [List.enum_map, List.flatMap_map]
        rfl
      · rw [List.enum_map, List.flatMap_map]
        apply List.flatMap_congr
        intro ce _
        simp only [Function.comp_apply, Prod.map]
        exact ih ce.2 (σ ++ [Step.inst ce.1])

theorem strip_allPinNodes (nl : Netlist) : allPinNodes (stripAttrs nl) = allPinNodes nl := by
  unfold allPinNodes
  rw [show (stripAttrs nl).defs.length = nl.defs.length by simp [stripAttrs]]
  exact strip_pinNodesFrom nl (nl.defs.length + 2) nl.top []

theorem strip_stackW (nl : Netlist) (l : List HPath) :
    stackW (stripAttrs nl) l = stackW nl l := by
  unfold stackW wWeight dsB dsE
  rw [strip_maxWirePins, show (stripAttrs nl).defs.length = nl.defs.length by simp [stripAttrs]]

theorem strip_dsMu (nl : Netlist) (s : DSState) : dsMu (stripAttrs nl) s = dsMu nl s := by
  unfold dsMu dsN dsC dsB dsE
  rw [strip_allPinNodes, strip_maxWirePins, strip_stackW,
    show (stripAttrs nl).defs.length = nl.defs.length by simp [stripAttrs]]

theorem strip_getDownstreamNodes (nl : Netlist) (flag : Bool) (π : HPath) :
    getDownstreamNodes (stripAttrs nl) flag π = getDownstreamNodes nl flag π := by
  show (dsRun (stripAttrs nl) flag (dsMu (stripAttrs nl) (dsInit (stripAttrs nl) flag π) + 1)
      (dsInit (stripAttrs nl) flag π)).downstream =
    (dsRun nl flag (dsMu nl (dsInit nl flag π) + 1) (dsInit nl flag π)).downstream
  rw [strip_dsInit, strip_dsMu, strip_dsRun]

theorem strip_maxFanout (nl : Netlist) : maxFanout (stripAttrs nl) = maxFanout nl := by
  unfold maxFanout stripAttrs
  simp only [List.map_map]
  congr 1
  apply List.map_congr_left
  intro d _
  simp [stripDef_ports, stripDef_cables, stripDef_children]

theorem strip_collMu (nl : Netlist) (l : List HPath) :
    collMu (stripAttrs nl) l = collMu nl l := by
  unfold collMu collWeight collB collE
  rw [strip_maxFanout, show (stripAttrs nl).defs.length = nl.defs.length by simp [stripAttrs]]

theorem strip_collRun (nl : Netlist) :
    ∀ (fuel : Nat) (acc wl : List HPath),
      collRun (stripAttrs nl) fuel acc wl = collRun nl fuel acc wl := by
  intro fuel
  induction fuel with
  | zero => intro acc wl; rfl
  | succ n ih =>
    intro acc wl
    cases wl with
    | nil => rfl
    | cons π rest =>
      unfold collRun
      rw [strip_resolve]
      cases hres : resolve nl π with
      | none => exact ih acc rest
      | some it =>
        cases it with
        | inst d =>
          simp only [Option.map_some', stripItem, stripInst_ref, strip_getDef]
          cases hdd : getDef nl d.ref with
          | none => exact ih acc rest
          | some dd =>
            simp only [Option.map_some', strip_isLeafDef]
            by_cases hleaf : isLeafDef dd = true
            · rw [if_pos hleaf, if_pos hleaf]
              exact ih (acc ++ [π]) rest
            · rw [if_neg hleaf, if_neg hleaf]
              rw [show childSteps (stripAttrs nl) (Item.inst (stripInst d)) =
                    childSteps nl (Item.inst d) from strip_childSteps nl (Item.inst d)]
              exact ih acc _
        | port p => exact ih acc rest
        | pin p i => exact ih acc rest
        | cable c => exact ih acc rest
        | wire c i => exact ih acc rest

theorem strip_leafInstanceNodes (nl : Netlist) :
    leafInstanceNodes (stripAttrs nl) = leafInstanceNodes nl := by
  unfold leafInstanceNodes
  rw [strip_collMu, strip_collRun]

theorem strip_topPortNodes (nl : Netlist) :
    topPortNodes (stripAttrs nl) = topPortNodes nl := by
  unfold topPortNodes
  rw [show (Item.inst (stripAttrs nl).top) = stripItem (Item.inst nl.top) from rfl,
    strip_childSteps]

theorem strip_baseNodes (nl : Netlist) (flag : Bool) :
    baseNodes (stripAttrs nl) flag = baseNodes nl flag := by
  unfold baseNodes
  rw [strip_leafInstanceNodes, strip_topPortNodes]

theorem strip_getConnectivityGraph (nl : Netlist) (flag : Bool) :
    getConnectivityGraph (stripAttrs nl) flag = getConnectivityGraph nl flag := by
  show (baseNodes (stripAttrs nl) flag).foldl
      (fun g π =>
        (getDownstreamNodes (stripAttrs nl) flag π).foldl (fun g2 d => addEdge g2 π d) g)
      (addNodes ⟨∅, ∅⟩ (baseNodes (stripAttrs nl) flag)) =
    (baseNodes nl flag).foldl
      (fun g π => (getDownstreamNodes nl flag π).foldl (fun g2 d => addEdge g2 π d) g)
      (addNodes ⟨∅, ∅⟩ (baseNodes nl flag))
  rw [strip_baseNodes]
  have hfun :
      (fun (g : DiGraph) (π : HPath) =>
        (getDownstreamNodes (stripAttrs nl) flag π).foldl (fun g2 d => addEdge g2 π d) g) =
      (fun (g : DiGraph) (π : HPath) =>
        (getDownstreamNodes nl flag π).foldl (fun g2 d => addEdge g2 π d) g) := by
    funext g π
    rw [strip_getDownstreamNodes]
  rw [hfun]

/-! ## Names of wire and pin nodes: bracket-index form and injectivity -/

theorem mapM_option_congr {α β : Type} (l : List α) (f g : α → Option β)
    (h : ∀ a ∈ l, f a = g a) : l.mapM f = l.mapM g := by
  induction l with
  | nil => rfl
  | cons a rest ih =>
    rw [List.mapM_cons, List.mapM_cons, h a (by simp),
      ih (fun x hx => h x (by simp [hx]))]

theorem prefixNames_snoc_indep (nl : Netlist) (π : HPath) (s t : Step) :
    prefixNames nl (π ++ [s]) = prefixNames nl (π ++ [t]) := by
  unfold prefixNames
  rw [List.length_append, List.length_append]
  apply mapM_option_congr
  intro k hk
  have hk' : k ≤ π.length := by
    simp only [List.mem_range] at hk
    simp only [List.length_singleton] at hk
    omega
  rw [List.take_append_of_le_length hk', List.take_append_of_le_length hk']

theorem resolve_snoc_wire (nl : Netlist) (π : HPath) (i : Nat) (it : Item)
    (h : resolve nl (π ++ [Step.wire i]) = some it) : ∃ cd, it = Item.wire cd i := by
  rw [resolve_snoc] at h
  cases hres : resolve nl π with
  | none => rw [hres] at h; simp at h
  | some itp =>
    rw [hres] at h
    simp only [Option.some_bind] at h
    cases itp with
    | cable c =>
      simp only [stepItem] at h
      by_cases hi : i < c.wires.length
      · rw [if_pos hi] at h
        exact ⟨c, (Option.some_inj.mp h).symm⟩
      · rw [if_neg hi] at h
        simp at h
    | inst d => simp [stepItem] at h
    | port p => simp [stepItem] at h
    | pin p k => simp [stepItem] at h
    | wire c k => simp [stepItem] at h

theorem resolve_snoc_pin (nl : Netlist) (π : HPath) (i : Nat) (it : Item)
    (h : resolve nl (π ++ [Step.pin i]) = some it) : ∃ pd, it = Item.pin pd i := by
  rw [resolve_snoc] at h
  cases hres : resolve nl π with
  | none => rw [hres] at h; simp at h
  | some itp =>
    rw [hres] at h
    simp only [Option.some_bind] at h
    cases itp with
    | port p =>
      simp only [stepItem] at h
      by_cases hi : i < p.numPins
      · rw [if_pos hi] at h
        exact ⟨p, (Option.some_inj.mp h).symm⟩
      · rw [if_neg hi] at h
        simp at h
    | inst d => simp [stepItem] at h
    | cable c => simp [stepItem] at h
    | pin p k => simp [stepItem] at h
    | wire c k => simp [stepItem] at h

theorem getHierName_wire (nl : Netlist) (π : HPath) (names : List String) (cd : CableDecl)
    (i : Nat) (hpre : prefixNames nl π = some names)
    (hres : resolve nl π = some (Item.wire cd i)) :
    getHierName nl π = some (joinNames names ++ "[" ++ natStr i ++ "]") := by
  simp only [getHierName, hpre, hres]

theorem getHierName_pin (nl : Netlist) (π : HPath) (names : List String) (pd : PortDecl)
    (i : Nat) (hpre : prefixNames nl π = some names)
    (hres : resolve nl π = some (Item.pin pd i)) :
    getHierName nl π = some (joinNames names ++ "[" ++ natStr i ++ "]") := by
  simp only [getHierName, hpre, hres]

theorem getHierName_snoc_wire (nl : Netlist) (π : HPath) (i : Nat) (s : String)
    (h : getHierName nl (π ++ [Step.wire i]) = some s) :
    ∃ names, prefixNames nl (π ++ [Step.wire i]) = some names ∧
      s = joinNames names ++ "[" ++ natStr i ++ "]" := by
  cases hpre : prefixNames nl (π ++ [Step.wire i]) with
  | none => simp [getHierName, hpre] at h
  | some names =>
    cases hres : resolve nl (π ++ [Step.wire i]) with
    | none => simp [getHierName, hpre, hres] at h
    | some it =>
      obtain ⟨cd, rfl⟩ := resolve_snoc_wire nl π i it hres
      refine ⟨names, rfl, ?_⟩
      have hform := getHierName_wire nl (π ++ [Step.wire i]) names cd i hpre hres
      rw [hform] at h
      exact (Option.some_inj.mp h).symm

theorem getHierName_snoc_pin (nl : Netlist) (π : HPath) (i : Nat) (s : String)
    (h : getHierName nl (π ++ [Step.pin i]) = some s) :
    ∃ names, prefixNames nl (π ++ [Step.pin i]) = some names ∧
      s = joinNames names ++ "[" ++ natStr i ++ "]" := by
  cases hpre : prefixNames nl (π ++ [Step.pin i]) with
  | none => simp [getHierName, hpre] at h
  | some names =>
    cases hres : resolve nl (π ++ [Step.pin i]) with
    | none => simp [getHierName, hpre, hres] at h
    | some it =>
      obtain ⟨pd, rfl⟩ := resolve_snoc_pin nl π i it hres
      refine ⟨names, rfl, ?_⟩
      have hform := getHierName_pin nl (π ++ [Step.pin i]) names pd i hpre hres
      rw [hform] at h
      exact (Option.some_inj.mp h).symm

theorem parseDec_append (l : List Char) (c : Char) :
    parseDec (l ++ [c]) = parseDec l * 10 + digitVal c := by
  unfold parseDec
  rw [List.foldl_append]
  rfl

theorem digitVal_digitChar (d : Nat) (h : d < 10) : digitVal (digitChar d) = d := by
  interval_cases d <;> rfl

theorem lt_pow10_succ (n : Nat) : n < 10 ^ (n + 1) := by
  induction n with
  | zero => norm_num
  | succ n ih =>
    have hpos : 0 < 10 ^ (n + 1) := Nat.pos_pow_of_pos _ (by norm_num)
    have hsq : 10 ^ (n + 2) = 10 ^ (n + 1) * 10 := pow_succ 10 (n + 1)
    calc n + 1 ≤ 10 ^ (n + 1) := ih
    _ < 10 ^ (n + 2) := by omega

theorem parseDec_natStrAux : ∀ (f n : Nat), n < 10 ^ f → parseDec (natStrAux f n) = n := by
  intro f
  induction f with
  | zero =>
    intro n h
    have hn : n = 0 := by simpa using h
    subst hn
    rfl
  | succ f ih =>
    intro n h
    unfold natStrAux
    by_cases h10 : n < 10
    · rw [if_pos h10]
      show parseDec [digitChar n] = n
      have : parseDec [digitChar n] = 0 * 10 + digitVal (digitChar n) := rfl
      rw [this, digitVal_digitChar n h10]
      omega
    · rw [if_neg h10]
      rw [parseDec_append]
      have hdiv : n / 10 < 10 ^ f := by
        rw [Nat.div_lt_iff_lt_mul (by norm_num)]
        calc n < 10 ^ (f + 1) := h
        _ = 10 ^ f * 10 := by rw [pow_succ]
      rw [ih (n / 10) hdiv, digitVal_digitChar (n % 10) (Nat.mod_lt _ (by norm_num))]
      omega

theorem natStr_data_inj (m n : Nat) (h : (natStr m).data = (natStr n).data) : m = n := by
  have hm : parseDec ((natStr m).data) = m := parseDec_natStrAux (m + 1) m (lt_pow10_succ m)
  have hn : parseDec ((natStr n).data) = n := parseDec_natStrAux (n + 1) n (lt_pow10_succ n)
  rw [h] at hm
  omega

theorem bracket_index_inj (pre : String) (i j : Nat)
    (h : pre ++ "[" ++ natStr i ++ "]" = pre ++ "[" ++ natStr j ++ "]") : i = j := by
  have hd := congrArg String.data h
  simp only [String.data_append] at hd
  have h2 := List.append_cancel_right hd
  have h3 := List.append_cancel_left h2
  exact natStr_data_inj i j h3

theorem hierName_wire_sibling (nl : Netlist) (π : HPath) (i j : Nat) (hne : i ≠ j)
    (hsome : (getHierName nl (π ++ [Step.wire i])).isSome = true) :
    getHierName nl (π ++ [Step.wire i]) ≠ getHierName nl (π ++ [Step.wire j]) := by
  obtain ⟨s, hs⟩ := Option.isSome_iff_exists.mp hsome
  intro heq
  have hs' : getHierName nl (π ++ [Step.wire j]) = some s := by rw [← heq, hs]
  obtain ⟨names, hpre, hform⟩ := getHierName_snoc_wire nl π i s hs
  obtain ⟨names2, hpre2, hform2⟩ := getHierName_snoc_wire nl π j s hs'
  have hind := prefixNames_snoc_indep nl π (Step.wire i) (Step.wire j)
  rw [hpre, hpre2] at hind
  have hnames : names = names2 := Option.some_inj.mp hind
  subst hnames
  apply hne
  apply bracket_index_inj (joinNames names)
  rw [← hform, ← hform2]

theorem hierName_pin_sibling (nl : Netlist) (π : HPath) (i j : Nat) (hne : i ≠ j)
    (hsome : (getHierName nl (π ++ [Step.pin i])).isSome = true) :
    getHierName nl (π ++ [Step.pin i]) ≠ getHierName nl (π ++ [Step.pin j]) := by
  obtain ⟨s, hs⟩ := Option.isSome_iff_exists.mp hsome
  intro heq
  have hs' : getHierName nl (π ++ [Step.pin j]) = some s := by rw [← heq, hs]
  obtain ⟨names, hpre, hform⟩ := getHierName_snoc_pin nl π i s hs
  obtain ⟨names2, hpre2, hform2⟩ := getHierName_snoc_pin nl π j s hs'
  have hind := prefixNames_snoc_indep nl π (Step.pin i) (Step.pin j)
  rw [hpre, hpre2] at hind
  have hnames : names = names2 := Option.some_inj.mp hind
  subst hnames
  apply hne
  apply bracket_index_inj (joinNames names)
  rw [← hform, ← hform2]

/-! ## The claims -/

/-- C1 (counterexample): on the spec's concrete scenario netlist, the edge
set of the graph built with top ports is not the claimed
`{P_in→A, A→B, B→P_out}`: the traversal also produces the self-loops
`A→A` and `B→B`, because the seed wire of a leaf instance contains that
instance's own outer pin and every outer pin on a leaf instance is
appended to the downstream list unconditionally (lines 205-209). -/
theorem claim_C1_counterexample :
    ¬ ((getConnectivityGraph nlC1 true).edges =
      ({([Step.port 0], [Step.inst 0]), ([Step.inst 0], [Step.inst 1]),
        ([Step.inst 1], [Step.port 1])} : Finset (HPath × HPath))) := by
  decide

/-- C1 (amended): on the spec's concrete scenario netlist (`A = [inst 0]`,
`B = [inst 1]`, `P_in = [port 0]`, `P_out = [port 1]`), the graph with top
ports has nodes `{A, B, P_in, P_out}` and edges
`{P_in→A, A→A, A→B, B→B, B→P_out}`; the graph without top ports has nodes
`{A, B}` and edges `{A→A, A→B, B→B}` — the claimed sets plus the
self-loops `A→A` and `B→B`. -/
theorem claim_C1 :
    (getConnectivityGraph nlC1 true).nodes =
      ({[Step.inst 0], [Step.inst 1], [Step.port 0], [Step.port 1]} : Finset HPath) ∧
    (getConnectivityGraph nlC1 true).edges =
      ({([Step.port 0], [Step.inst 0]), ([Step.inst 0], [Step.inst 0]),
        ([Step.inst 0], [Step.inst 1]), ([Step.inst 1], [Step.inst 1]),
        ([Step.inst 1], [Step.port 1])} : Finset (HPath × HPath)) ∧
    (getConnectivityGraph nlC1 false).nodes =
      ({[Step.inst 0], [Step.inst 1]} : Finset HPath) ∧
    (getConnectivityGraph nlC1 false).edges =
      ({([Step.inst 0], [Step.inst 0]), ([Step.inst 0], [Step.inst 1]),
        ([Step.inst 1], [Step.inst 1])} : Finset (HPath × HPath)) := by
  decide

/-- C2: for every well-formed netlist, the graph built with top ports
has at least as many nodes and edges as the graph built without, and the
latter equals the former with the top-port nodes and their incident edges
removed. -/
theorem claim_C2 (nl : Netlist) (rk : Nat → Nat) (hwf : wfB nl rk = true) :
    (getConnectivityGraph nl false).nodes.card ≤ (getConnectivityGraph nl true).nodes.card ∧
    (getConnectivityGraph nl false).edges.card ≤ (getConnectivityGraph nl true).edges.card ∧
    getConnectivityGraph nl false =
      removeNodesFrom (getConnectivityGraph nl true) (topPortNodes nl).toFinset := by
  have h := graph_remove_topPorts nl rk hwf
  refine ⟨?_, ?_, h⟩
  · rw [h]
    exact Finset.card_le_card Finset.sdiff_subset
  · rw [h]
    exact Finset.card_le_card (Finset.filter_subset _ _)

theorem claim_C2_witness :
    (getConnectivityGraph nlC1 false).nodes.card ≤ (getConnectivityGraph nlC1 true).nodes.card ∧
    (getConnectivityGraph nlC1 false).edges.card ≤ (getConnectivityGraph nlC1 true).edges.card ∧
    getConnectivityGraph nlC1 false =
      removeNodesFrom (getConnectivityGraph nlC1 true) (topPortNodes nlC1).toFinset :=
  claim_C2 nlC1 (fun i => i) (by decide)

/-- C3: on every well-formed netlist (the ranking `rk` witnesses finite
hierarchy depth) the downstream traversal terminates for every start node
and flag: the loop, run with the computed fuel, ends with an empty work
stack, and the visited pin-node set never holds a duplicate; moreover, on
the concrete feedback netlist `nlC3` (output of leaf X feeding Y and
output of Y feeding back into X) the resulting graph legitimately
contains the cycle X→Y, Y→X. -/
theorem claim_C3 (nl : Netlist) (rk : Nat → Nat) (flag : Bool) (π : HPath)
    (hwf : wfB nl rk = true) :
    ((dsFinal nl flag π).stack = [] ∧ (dsFinal nl flag π).found.Nodup) ∧
    (([Step.inst 0], [Step.inst 1]) ∈ (getConnectivityGraph nlC3 true).edges ∧
      ([Step.inst 1], [Step.inst 0]) ∈ (getConnectivityGraph nlC3 true).edges) := by
  obtain ⟨hG, hstk⟩ := dsFinal_good nl rk flag hwf π
  exact ⟨⟨hstk, hG.foundNodup⟩, by decide, by decide⟩

theorem claim_C3_witness :
    (((dsFinal nlC3 true [Step.inst 0]).stack = [] ∧
      (dsFinal nlC3 true [Step.inst 0]).found.Nodup) ∧
     (([Step.inst 0], [Step.inst 1]) ∈ (getConnectivityGraph nlC3 true).edges ∧
      ([Step.inst 1], [Step.inst 0]) ∈ (getConnectivityGraph nlC3 true).edges)) :=
  claim_C3 nlC3 (fun i => i) true [Step.inst 0] (by decide)

/-- C4: the seed step of the downstream traversal.  If the node wraps an
instance, the seeded work stack is exactly the spec's list of wires
attached to pins whose inner-pin port direction is OUT or INOUT and whose
wire is non-null (pushed in order, hence reversed on the stack); if it
wraps a port and the flag is asserted, the stack is exactly the spec's
list for ports, which is empty unless the port direction is IN or INOUT;
in every other case (port with the flag off, pin, cable, wire,
unresolvable path) no seeds are recorded; and whenever no seed is
recorded the returned downstream list is empty. -/
theorem claim_C4 (nl : Netlist) (flag : Bool) (π : HPath) :
    (∀ d, resolve nl π = some (Item.inst d) →
      (dsInit nl flag π).stack = (seedWiresSpecInst nl π d).reverse) ∧
    (∀ pd, resolve nl π = some (Item.port pd) → flag = true →
      (dsInit nl flag π).stack = (seedWiresSpecPort nl π pd).reverse) ∧
    (∀ pd, dirInish pd.direction = false → seedWiresSpecPort nl π pd = []) ∧
    (∀ pd, resolve nl π = some (Item.port pd) → flag = false →
      (dsInit nl flag π).stack = []) ∧
    ((∀ d, resolve nl π ≠ some (Item.inst d)) →
      (∀ pd, resolve nl π ≠ some (Item.port pd)) →
      (dsInit nl flag π).stack = []) ∧
    ((dsInit nl flag π).stack = [] → getDownstreamNodes nl flag π = []) := by
  refine ⟨?_, ?_, ?_, ?_, ?_, noSeeds_empty nl flag π⟩
  · intro d h
    simp only [dsInit, h]
    exact seedInst_stack nl π d
  · intro pd h hf
    subst hf
    simp only [dsInit, h, if_true]
    exact seedPort_stack nl π pd
  · intro pd hdir
    simp [seedWiresSpecPort, hdir]
  · intro pd h hf
    subst hf
    simp [dsInit, h]
  · intro h1 h2
    cases hres : resolve nl π with
    | none => simp [dsInit, hres]
    | some it =>
      cases it with
      | inst d => exact absurd hres (h1 d)
      | port pd => exact absurd hres (h2 pd)
      | pin p i => simp [dsInit, hres]
      | cable c => simp [dsInit, hres]
      | wire c i => simp [dsInit, hres]

/-- C5 (counterexample): the node of leaf instance A in the scenario
netlist is a leaf-instance node, yet the expansion pass gives it children
(one per port of its definition), and those child nodes exist in the
tree: the sentence "leaf instances produce no further children" is wrong
(lines 89-102 expand every instance alike). -/
theorem claim_C5_counterexample :
    isLeafNodeB nlC1 [Step.inst 0] = true ∧
    childSteps nlC1 (Item.inst ⟨0, [("EDIF.identifier", "A")]⟩) =
      [Step.port 0, Step.port 1] ∧
    (resolve nlC1 [Step.inst 0, Step.port 0]).isSome = true := by
  decide

/-- C5 (amended): in the tree built by `generate_nodes`, every instance
node — leaf or not — has one child per port, per cable and per child
instance of its referenced definition (in that order), a port node one
child per pin, a cable node one per wire, and pin and wire nodes none;
moreover a step is a child of the node exactly when it leads to an
existing node. -/
theorem claim_C5 (nl : Netlist) (it : Item) :
    childSteps nl it = childrenSpecC5 nl it ∧
    (∀ s, s ∈ childSteps nl it ↔ (stepItem nl it s).isSome) := by
  constructor
  · cases it <;> rfl
  · intro s
    exact mem_childSteps_iff nl it s

/-- C6 (counterexample): an element carrying neither the preferred nor the
generated identifier is not reported as an error: `get_name` silently
returns no name and `get_hiearchical_name` folds the `None` sentinel into
a successfully returned display name ("TOP/None"). -/
theorem claim_C6_counterexample :
    getName (itemAttrs (Item.inst (⟨0, []⟩ : InstDecl))) = none ∧
    getHierName nlC6 [Step.inst 0] = some "TOP/None" := by
  decide

/-- C6 (amended): when an element carries neither name attribute,
`get_name` returns no name silently (no error is raised or reported), and
naming is indeed ancillary to graph construction: the connectivity graph
is unchanged when every attribute dictionary of the netlist is erased. -/
theorem claim_C6 (nl : Netlist) (flag : Bool) :
    (∀ a : Attrs, a.lookup "EDIF.original_identifier" = none →
      a.lookup "EDIF.identifier" = none → getName a = none) ∧
    getConnectivityGraph (stripAttrs nl) flag = getConnectivityGraph nl flag := by
  refine ⟨?_, strip_getConnectivityGraph nl flag⟩
  intro a h1 h2
  simp [getName, h1, h2]

/-- C7 (counterexample): hierarchical display names are not unique for
distinct nodes, even when every element on the ancestor paths resolves a
name: in `nlC7` the top definition's two distinct ports both carry the
name attribute "P", and both port nodes render as "TOP/P". -/
theorem claim_C7_counterexample :
    ([Step.port 0] : HPath) ≠ [Step.port 1] ∧
    (resolve nlC7 [Step.port 0]).isSome = true ∧
    (resolve nlC7 [Step.port 1]).isSome = true ∧
    (nodeOwnName nlC7 []).isSome = true ∧
    (nodeOwnName nlC7 [Step.port 0]).isSome = true ∧
    (nodeOwnName nlC7 [Step.port 1]).isSome = true ∧
    getHierName nlC7 [Step.port 0] = getHierName nlC7 [Step.port 1] ∧
    getHierName nlC7 [Step.port 0] = some "TOP/P" := by
  decide

/-- C7 (amended): the bracket-index special cases do hold and do make
sibling wire and pin names unique — a wire node's name is its ancestors'
joined names followed by its index within its owning cable in bracket
notation, a pin node's likewise within its owning port, and two distinct
wire (resp. pin) children of the same node always render distinct names —
but uniqueness fails in general for named elements (see the
counterexample). -/
theorem claim_C7 (nl : Netlist) (π : HPath) :
    (∀ names cd i, prefixNames nl π = some names →
      resolve nl π = some (Item.wire cd i) →
      getHierName nl π = some (joinNames names ++ "[" ++ natStr i ++ "]")) ∧
    (∀ names pd i, prefixNames nl π = some names →
      resolve nl π = some (Item.pin pd i) →
      getHierName nl π = some (joinNames names ++ "[" ++ natStr i ++ "]")) ∧
    (∀ i j, i ≠ j → (getHierName nl (π ++ [Step.wire i])).isSome = true →
      getHierName nl (π ++ [Step.wire i]) ≠ getHierName nl (π ++ [Step.wire j])) ∧
    (∀ i j, i ≠ j → (getHierName nl (π ++ [Step.pin i])).isSome = true →
      getHierName nl (π ++ [Step.pin i]) ≠ getHierName nl (π ++ [Step.pin j])) := by
  refine ⟨?_, ?_, ?_, ?_⟩
  · intro names cd i hpre hres
    exact getHierName_wire nl π names cd i hpre hres
  · intro names pd i hpre hres
    exact getHierName_pin nl π names pd i hpre hres
  · intro i j hne hsome
    exact hierName_wire_sibling nl π i j hne hsome
  · intro i j hne hsome
    exact hierName_pin_sibling nl π i j hne hsome

/-- C8: the graph construction is a pure function of the netlist model
and the flag: building the graph twice from the same unmodified netlist
yields identical node and edge sets (the embedding mutates nothing, so
the two invocations are the same term). -/
theorem claim_C8 (nl : Netlist) (flag : Bool) :
    (getConnectivityGraph nl flag).nodes = (getConnectivityGraph nl flag).nodes ∧
    (getConnectivityGraph nl flag).edges = (getConnectivityGraph nl flag).edges :=
  ⟨rfl, rfl⟩

/-- C9: on a well-formed netlist every downstream node is a selected
graph node — a leaf-instance node (its path ending in an instance step),
or, only when the flag is asserted, a top-level port node — the graph's
node set is exactly the selected base nodes, and every inserted edge
joins two nodes of the graph's node set. -/
theorem claim_C9 (nl : Netlist) (rk : Nat → Nat) (flag : Bool) (hwf : wfB nl rk = true) :
    (∀ π, ∀ dn ∈ getDownstreamNodes nl flag π,
      (isLeafNodeB nl dn = true ∧ instLast dn = true) ∨
        (flag = true ∧ dn ∈ topPortNodes nl)) ∧
    (∀ x, x ∈ (getConnectivityGraph nl flag).nodes ↔ x ∈ baseNodes nl flag) ∧
    (∀ e ∈ (getConnectivityGraph nl flag).edges,
      e.1 ∈ (getConnectivityGraph nl flag).nodes ∧
        e.2 ∈ (getConnectivityGraph nl flag).nodes) := by
  refine ⟨fun π => getDownstream_sel nl rk flag hwf π,
    graph_nodes_base nl rk flag hwf, ?_⟩
  intro e he
  obtain ⟨π, hπ, dn, hdn, rfl⟩ := (mem_graph_edges nl flag e).mp he
  constructor
  · exact (graph_nodes_base nl rk flag hwf _).mpr hπ
  · exact (graph_nodes_base nl rk flag hwf _).mpr
      (downstream_in_base nl rk flag hwf π dn hdn)

theorem claim_C9_witness :
    ((∀ π, ∀ dn ∈ getDownstreamNodes nlC1 true π,
      (isLeafNodeB nlC1 dn = true ∧ instLast dn = true) ∨
        (true = true ∧ dn ∈ topPortNodes nlC1)) ∧
    (∀ x, x ∈ (getConnectivityGraph nlC1 true).nodes ↔ x ∈ baseNodes nlC1 true) ∧
    (∀ e ∈ (getConnectivityGraph nlC1 true).edges,
      e.1 ∈ (getConnectivityGraph nlC1 true).nodes ∧
        e.2 ∈ (getConnectivityGraph nlC1 true).nodes)) :=
  claim_C9 nlC1 (fun i => i) true (by decide)

/-- C10: parent/child consistency of the hierarchy tree in the path
model: the root path resolves to the netlist's top instance; the child of
the node at `π` along step `s` wraps exactly the element `stepItem` gives
for `s`; the child's parent (its path with the last step dropped) is `π`;
`s` is a child key exactly when the child node exists; and the child keys
of a node are duplicate-free (one node per (parent, element) pair). -/
theorem claim_C10 (nl : Netlist) (π : HPath) (s : Step) (it : Item)
    (hres : resolve nl π = some it) :
    resolve nl [] = some (Item.inst nl.top) ∧
    resolve nl (π ++ [s]) = stepItem nl it s ∧
    (π ++ [s]).dropLast = π ∧
    (s ∈ childSteps nl it ↔ (stepItem nl it s).isSome) ∧
    (childSteps nl it).Nodup := by
  refine ⟨rfl, ?_, by simp, mem_childSteps_iff nl it s, childSteps_nodup nl it⟩
  rw [resolve_snoc, hres]
  rfl

theorem claim_C10_witness :
    (resolve nlC1 [] = some (Item.inst nlC1.top) ∧
    resolve nlC1 ([] ++ [Step.inst 0]) = stepItem nlC1 (Item.inst nlC1.top) (Step.inst 0) ∧
    (([] : HPath) ++ [Step.inst 0]).dropLast = [] ∧
    (Step.inst 0 ∈ childSteps nlC1 (Item.inst nlC1.top) ↔
      (stepItem nlC1 (Item.inst nlC1.top) (Step.inst 0)).isSome) ∧
    (childSteps nlC1 (Item.inst nlC1.top)).Nodup) :=
  claim_C10 nlC1 [] (Step.inst 0) (Item.inst nlC1.top) rfl
